import Mathlib

/-!
Verification of the document store and state-transition engine of the
proxy-staff repository: the frontmatter codec, the path-addressable
mutation engine of `life_write.py`, the reply-intent classifier and stage
policy of `process_campaign_replies.py`, the approval-queue execution
batch of `execute_approved_actions.py`, the legacy-target migration of
`migrate_targets_to_prospects.py`, and the target-reference writer of
`campaign_write.py`.

JSON documents are modelled by the inductive type `JVal`; numbers are
modelled as integers (the frontmatter documents of this repository hold
no fractional numbers, and `json.dumps`/`json.loads` are exact on
integers).  Python dicts are modelled as association lists in insertion
order, which is the order `json.dumps` prints and the order iteration
follows.
-/

set_option maxHeartbeats 1000000

/-- A JSON value: null, boolean, integer, string, array or object.
Objects are association lists in insertion order (faithful to Python
dicts, which preserve insertion order and print in it). -/
inductive JVal where
  | null : JVal
  | bool : Bool → JVal
  | num : Int → JVal
  | str : String → JVal
  | arr : List JVal → JVal
  | obj : List (String × JVal) → JVal
deriving Repr

namespace JVal

/-- Looks a key up in an object field list (first occurrence, like a dict). -/
def lookupKey (fields : List (String × JVal)) (k : String) : Option JVal :=
  match fields with
  | [] => none
  | (k0, v0) :: rest => if k0 = k then some v0 else lookupKey rest k

/-- Python `d[k] = v` on a dict as an association list: an existing key
keeps its position and gets the new value, a fresh key is appended. -/
def setKey (fields : List (String × JVal)) (k : String) (v : JVal) :
    List (String × JVal) :=
  match fields with
  | [] => [(k, v)]
  | (k0, v0) :: rest =>
      if k0 = k then (k0, v) :: rest else (k0, v0) :: setKey rest k v

/-- Python truthiness of a JSON value (`bool(x)`): `None`, `False`, `0`,
`""`, `[]` and `{}` are falsy, everything else is truthy. -/
def truthy : JVal → Bool
  | .null => false
  | .bool b => b
  | .num n => n != 0
  | .str s => s != ""
  | .arr xs => !xs.isEmpty
  | .obj fs => !fs.isEmpty

end JVal

/-! ## The serializer: `json.dumps(data, indent=2, ensure_ascii=False)` -/

namespace Dumps

/-- Hexadecimal digit characters, lowercase, as `"%x"` formats them. -/
def hexDigit (d : Nat) : Char :=
  (String.toList "0123456789abcdef").getD d '0'

/-- The escape `json.dumps` (with `ensure_ascii=False`) applies to one
character of a string: `\"` and `\\` are escaped, the five named control
characters use their short escapes, the remaining control characters
below `0x20` use `\u00XX`, and every other character passes through. -/
def escapeChar (c : Char) : List Char :=
  if c = '"' then ['\\', '"']
  else if c = '\\' then ['\\', '\\']
  else if c = '\n' then ['\\', 'n']
  else if c = '\t' then ['\\', 't']
  else if c = '\r' then ['\\', 'r']
  else if c = '\x08' then ['\\', 'b']
  else if c = '\x0c' then ['\\', 'f']
  else if c.toNat < 0x20 then
    ['\\', 'u', '0', '0', hexDigit (c.toNat / 16), hexDigit (c.toNat % 16)]
  else [c]

/-- Escapes a whole string body (without the surrounding quotes). -/
def escapeChars : List Char → List Char
  | [] => []
  | c :: rest => escapeChar c ++ escapeChars rest

/-- A JSON string literal: quotes around the escaped body. -/
def quoteStr (s : String) : List Char :=
  '"' :: escapeChars s.toList ++ ['"']

/-- Decimal digits of a natural number, most significant first. -/
def natChars (n : Nat) : List Char :=
  if h : n < 10 then [hexDigit n]
  else natChars (n / 10) ++ [hexDigit (n % 10)]
decreasing_by exact Nat.div_lt_self (by omega) (by omega)

/-- Decimal representation of an integer, as Python prints it. -/
def intChars (n : Int) : List Char :=
  if n < 0 then '-' :: natChars n.natAbs else natChars n.toNat

/-- `n` spaces of indentation. -/
def spaces (n : Nat) : List Char := List.replicate n ' '

mutual

/-- `json.dumps(v, indent=2, ensure_ascii=False)` at indentation `ind`
(the indentation of the value's opening position; nested members are
printed at `ind + 2`). -/
def dumpVal (ind : Nat) (v : JVal) : List Char :=
  match v with
  | .null => 'n' :: ['u', 'l', 'l']
  | .bool true => 't' :: ['r', 'u', 'e']
  | .bool false => 'f' :: ['a', 'l', 's', 'e']
  | .num n => intChars n
  | .str s => quoteStr s
  | .arr [] => ['[', ']']
  | .arr (x :: xs) =>
      '[' :: '\n' :: spaces (ind + 2) ++ dumpSeq (ind + 2) x xs ++
        '\n' :: spaces ind ++ [']']
  | .obj [] => ['{', '}']
  | .obj (f :: fs) =>
      '{' :: '\n' :: spaces (ind + 2) ++ dumpFields (ind + 2) f.1 f.2 fs ++
        '\n' :: spaces ind ++ ['}']
termination_by sizeOf v
decreasing_by
  all_goals (try cases f) <;>
    simp only [JVal.arr.sizeOf_spec, JVal.obj.sizeOf_spec,
      List.cons.sizeOf_spec, List.nil.sizeOf_spec, Prod.mk.sizeOf_spec] <;> omega

/-- The comma-and-newline separated items of a nonempty array. -/
def dumpSeq (ind : Nat) (x : JVal) (xs : List JVal) : List Char :=
  dumpVal ind x ++
    match xs with
    | [] => []
    | y :: ys => ',' :: '\n' :: spaces ind ++ dumpSeq ind y ys
termination_by 1 + sizeOf x + sizeOf xs
decreasing_by
  all_goals (try simp only [List.cons.sizeOf_spec]) <;> omega

/-- The comma-and-newline separated `"key": value` members of a
nonempty object. -/
def dumpFields (ind : Nat) (k : String) (v : JVal)
    (fs : List (String × JVal)) : List Char :=
  quoteStr k ++ ':' :: ' ' :: dumpVal ind v ++
    match fs with
    | [] => []
    | g :: gs => ',' :: '\n' :: spaces ind ++ dumpFields ind g.1 g.2 gs
termination_by 1 + sizeOf v + sizeOf fs
decreasing_by
  all_goals (try cases g) <;>
    (try simp only [List.cons.sizeOf_spec, Prod.mk.sizeOf_spec]) <;> omega

end

/-- `json.dumps(data, indent=2, ensure_ascii=False)` as the repository
calls it: top level at indentation 0. -/
def dumps (v : JVal) : List Char := dumpVal 0 v

end Dumps

/-! ## The parser: `json.loads` (restricted to integer numbers) -/

namespace Loads

open Dumps

/-- JSON whitespace (the only characters `json.loads` skips between
tokens): space, tab, newline, carriage return. -/
def jsonWs (c : Char) : Bool :=
  c = ' ' || c = '\t' || c = '\n' || c = '\r'

/-- Drops leading JSON whitespace. -/
def skipWs (s : List Char) : List Char := s.dropWhile (fun c => jsonWs c)

/-- Value of a hexadecimal digit character, if it is one. -/
def hexVal (c : Char) : Option Nat :=
  if '0' ≤ c ∧ c ≤ '9' then some (c.toNat - 48)
  else if 'a' ≤ c ∧ c ≤ 'f' then some (c.toNat - 87)
  else if 'A' ≤ c ∧ c ≤ 'F' then some (c.toNat - 55)
  else none

/-- Parses the body of a JSON string literal after the opening quote,
returning the decoded characters and the input after the closing quote.
Escapes are decoded; a raw control character is rejected (strict mode,
as `json.loads` behaves); a `\uXXXX` escape must denote a valid scalar
value. -/
def parseStrChars (s : List Char) : Option (List Char × List Char) :=
  match s with
  | [] => none
  | c :: r =>
    if c = '"' then some ([], r)
    else if c = '\\' then
      match r with
      | [] => none
      | e :: r1 =>
        match e with
        | '"' => (parseStrChars r1).map (fun p => ('"' :: p.1, p.2))
        | '\\' => (parseStrChars r1).map (fun p => ('\\' :: p.1, p.2))
        | '/' => (parseStrChars r1).map (fun p => ('/' :: p.1, p.2))
        | 'n' => (parseStrChars r1).map (fun p => ('\n' :: p.1, p.2))
        | 't' => (parseStrChars r1).map (fun p => ('\t' :: p.1, p.2))
        | 'r' => (parseStrChars r1).map (fun p => ('\r' :: p.1, p.2))
        | 'b' => (parseStrChars r1).map (fun p => ('\x08' :: p.1, p.2))
        | 'f' => (parseStrChars r1).map (fun p => ('\x0c' :: p.1, p.2))
        | 'u' =>
          match r1 with
          | h1 :: h2 :: h3 :: h4 :: r2 =>
            match hexVal h1, hexVal h2, hexVal h3, hexVal h4 with
            | some d1, some d2, some d3, some d4 =>
              let code := ((d1 * 16 + d2) * 16 + d3) * 16 + d4
              if h : code.isValidChar then
                (parseStrChars r2).map (fun p => (Char.ofNat code :: p.1, p.2))
              else none
            | _, _, _, _ => none
          | _ => none
        | _ => none
    else if c.toNat < 0x20 then none
    else (parseStrChars r).map (fun p => (c :: p.1, p.2))

/-- Numeric value of a list of decimal digit characters. -/
def digitsToNat (ds : List Char) : Nat :=
  ds.foldl (fun a c => a * 10 + (c.toNat - 48)) 0

/-- Digits-and-suffix stage of number parsing: reads a maximal digit
run, rejects an empty run, a leading zero, and a following fraction or
exponent mark (only integers are represented in the model; a fractional
number is rejected rather than misread). -/
def parseNumCore (neg : Bool) (s1 : List Char) : Option (JVal × List Char) :=
  let digits := s1.takeWhile Char.isDigit
  let rest := s1.drop digits.length
  if digits = [] then none
  else if digits.length > 1 ∧ digits.headD '0' = '0' then none
  else
    match rest with
    | '.' :: _ => none
    | 'e' :: _ => none
    | 'E' :: _ => none
    | _ =>
      let n : Int := digitsToNat digits
      some (.num (if neg then -n else n), rest)

/-- Parses a JSON number: an optional minus sign, then the digit run. -/
def parseNum (s : List Char) : Option (JVal × List Char) :=
  match s with
  | c :: t => if c = '-' then parseNumCore true t else parseNumCore false (c :: t)
  | [] => parseNumCore false []

mutual

/-- Parses one JSON value at the head of the input (no leading
whitespace), returning it with the unconsumed suffix.  `fuel` bounds the
nesting recursion; any `fuel` larger than the length of the consumed
text is enough. -/
def parseVal (fuel : Nat) (s : List Char) : Option (JVal × List Char) :=
  match fuel with
  | 0 => none
  | fuel + 1 =>
    match s with
    | [] => none
    | c :: t =>
      if c = '-' || c.isDigit then parseNum (c :: t)
      else
        match c, t with
        | 'n', 'u' :: 'l' :: 'l' :: r => some (.null, r)
        | 't', 'r' :: 'u' :: 'e' :: r => some (.bool true, r)
        | 'f', 'a' :: 'l' :: 's' :: 'e' :: r => some (.bool false, r)
        | '"', r =>
            (parseStrChars r).map (fun p => (.str p.1.asString, p.2))
        | '[', r =>
            let r1 := skipWs r
            match r1 with
            | ']' :: r2 => some (.arr [], r2)
            | _ => parseItems fuel r1 []
        | '{', r =>
            let r1 := skipWs r
            match r1 with
            | '}' :: r2 => some (.obj [], r2)
            | _ => parseFields fuel r1 []
        | _, _ => none

/-- Parses the remaining items of a nonempty array, accumulating in
order. -/
def parseItems (fuel : Nat) (s : List Char) (acc : List JVal) :
    Option (JVal × List Char) :=
  match fuel with
  | 0 => none
  | fuel + 1 =>
    match parseVal fuel s with
    | none => none
    | some (v, r) =>
      match skipWs r with
      | ',' :: r2 => parseItems fuel (skipWs r2) (acc ++ [v])
      | ']' :: r2 => some (.arr (acc ++ [v]), r2)
      | _ => none

/-- Parses the remaining members of a nonempty object.  A repeated key
overwrites the earlier value in place, as building a Python dict does. -/
def parseFields (fuel : Nat) (s : List Char) (acc : List (String × JVal)) :
    Option (JVal × List Char) :=
  match fuel with
  | 0 => none
  | fuel + 1 =>
    match s with
    | '"' :: r =>
      match parseStrChars r with
      | none => none
      | some (kcs, r1) =>
        match skipWs r1 with
        | ':' :: r2 =>
          match parseVal fuel (skipWs r2) with
          | none => none
          | some (v, r3) =>
            let acc2 := JVal.setKey acc kcs.asString v
            match skipWs r3 with
            | ',' :: r4 => parseFields fuel (skipWs r4) acc2
            | '}' :: r4 => some (.obj acc2, r4)
            | _ => none
        | _ => none
    | _ => none

end

/-- `json.loads` on a whole text: skip surrounding whitespace, parse one
value, and require nothing but whitespace after it. -/
def loads (s : List Char) : Option JVal :=
  match parseVal (s.length + 1) (skipWs s) with
  | some (v, r) => if skipWs r = [] then some v else none
  | none => none

end Loads

/-! ## The frontmatter codec of `life_write.py` (also defined verbatim in
`campaign_write.py` and `migrate_targets_to_prospects.py`):
`parse_frontmatter` applies the anchored regular expression
`---json\s*\n(.*?)\n---\s*\n?(.*)` with DOTALL and decodes group 1;
`serialize_frontmatter` concatenates the fences, the dumped JSON and the
markdown body. -/

namespace Frontmatter

/-- The characters Python's `\s` matches in a `str` pattern. -/
def isPyWs (c : Char) : Bool :=
  c ∈ [' ', '\t', '\n', '\r', '\x0b', '\x0c',
       '\x1c', '\x1d', '\x1e', '\x1f', '\x85', '\xa0',
       ' ', ' ', ' ', ' ', ' ', ' ',
       ' ', ' ', ' ', ' ', ' ', ' ',
       ' ', ' ', ' ', ' ', '　']

/-- Index of the first occurrence of the closing fence `\n---`, the
position the lazy group `(.*?)` stops at. -/
def findFence : List Char → Option Nat
  | '\n' :: '-' :: '-' :: '-' :: _ => some 0
  | _ :: t => (findFence t).map (· + 1)
  | [] => none

/-- The regular expression
`^---json\s*\n(.*?)\n---\s*\n?(.*)$` (DOTALL), returning groups 1 and 2
on a match.  `\s*\n` consumes through a newline of the maximal
whitespace run, latest first (greedy with backtracking); the lazy group
stops at the first following `\n---`; the trailing `\s*\n?` greedily
consumes whitespace before group 2. -/
def frameSplit (content : List Char) : Option (List Char × List Char) :=
  match content with
  | '-' :: '-' :: '-' :: 'j' :: 's' :: 'o' :: 'n' :: r0 =>
    let run := r0.takeWhile isPyWs
    let cands := ((List.range run.length).filter
      (fun i => run.getD i ' ' = '\n')).reverse
    cands.findSome? (fun p =>
      let tail := r0.drop (p + 1)
      match findFence tail with
      | some f =>
          some (tail.take f, (tail.drop (f + 4)).dropWhile isPyWs)
      | none => none)
  | _ => none

/-- The opening fence `---json\n` written by `serialize_frontmatter`. -/
def fmOpen : List Char := ['-', '-', '-', 'j', 's', 'o', 'n', '\n']

/-- The closing fence `\n---\n` written by `serialize_frontmatter`. -/
def fmClose : List Char := ['\n', '-', '-', '-', '\n']

/-- `serialize_frontmatter(data, markdown)`:
`f"---json\n{json_str}\n---\n{markdown}"` with
`json_str = json.dumps(data, indent=2, ensure_ascii=False)`. -/
def serialize_frontmatter (data : JVal) (markdown : String) : String :=
  (fmOpen ++ Dumps.dumps data ++ fmClose ++ markdown.toList).asString

/-- `parse_frontmatter(content)`: on a regex match whose group 1 decodes
as JSON, the decoded value and group 2; otherwise `({}, content)`. -/
def parse_frontmatter (content : String) : JVal × String :=
  match frameSplit content.toList with
  | some (g1, g2) =>
    match Loads.loads g1 with
    | some v => (v, g2.asString)
    | none => (JVal.obj [], content)
  | none => (JVal.obj [], content)

end Frontmatter

/-! ## Well-formedness: every object level of a value has distinct keys,
as is forced for data that originates from Python dicts. -/

/-- No string occurs twice in the list. -/
def nodupKeys : List String → Bool
  | [] => true
  | k :: ks => !ks.contains k && nodupKeys ks

mutual

/-- A JSON value is well formed when every object in it (at any depth)
has pairwise distinct keys.  Data held in Python dicts always is. -/
def JWF (v : JVal) : Bool :=
  match v with
  | .arr xs => JWFList xs
  | .obj fs => nodupKeys (fs.map Prod.fst) && JWFFields fs
  | _ => true
termination_by sizeOf v
decreasing_by
  all_goals simp only [JVal.arr.sizeOf_spec, JVal.obj.sizeOf_spec] <;> omega

/-- All values of a list are well formed. -/
def JWFList (xs : List JVal) : Bool :=
  match xs with
  | [] => true
  | x :: t => JWF x && JWFList t
termination_by sizeOf xs
decreasing_by
  all_goals simp only [List.cons.sizeOf_spec] <;> omega

/-- All values of a field list are well formed. -/
def JWFFields (fs : List (String × JVal)) : Bool :=
  match fs with
  | [] => true
  | (k, v) :: t => JWF v && JWFFields t
termination_by sizeOf fs
decreasing_by
  all_goals simp only [List.cons.sizeOf_spec, Prod.mk.sizeOf_spec] <;> omega

end

/-! ## Round-trip lemmas for the codec -/

namespace Roundtrip

open Dumps Loads

/-- Characters that may legally follow a dumped value inside a larger
dump (separator, newline, or a closing bracket), or the end of input. -/
def sepOk : List Char → Bool
  | [] => true
  | c :: _ => c = ',' || c = '\n' || c = '}' || c = ']'

theorem hexDigit_lt10_toNat {d : Nat} (h : d < 10) :
    (hexDigit d).toNat = 48 + d := by
  interval_cases d <;> rfl

theorem hexDigit_lt10_isDigit {d : Nat} (h : d < 10) :
    (hexDigit d).isDigit = true := by
  interval_cases d <;> rfl

theorem natChars_digits : ∀ n, ∀ c ∈ natChars n, c.isDigit = true := by
  intro n
  induction n using Nat.strong_induction_on with
  | _ n ih =>
    rw [natChars]
    split
    · intro c hc
      simp only [List.mem_singleton] at hc
      subst hc
      exact hexDigit_lt10_isDigit (by omega)
    · intro c hc
      rcases List.mem_append.mp hc with h | h
      · exact ih (n / 10) (Nat.div_lt_self (by omega) (by omega)) c h
      · simp only [List.mem_singleton] at h
        subst h
        exact hexDigit_lt10_isDigit (Nat.mod_lt _ (by omega))

theorem natChars_ne_nil (n : Nat) : natChars n ≠ [] := by
  rw [natChars]
  split <;> simp

theorem digitsToNat_append_single (ds : List Char) (c : Char) :
    digitsToNat (ds ++ [c]) = digitsToNat ds * 10 + (c.toNat - 48) := by
  simp [digitsToNat, List.foldl_append]

theorem digitsToNat_natChars : ∀ n, digitsToNat (natChars n) = n := by
  intro n
  induction n using Nat.strong_induction_on with
  | _ n ih =>
    rw [natChars]
    split
    · next h =>
      simp [digitsToNat, hexDigit_lt10_toNat h]
    · next h =>
      rw [digitsToNat_append_single,
        ih (n / 10) (Nat.div_lt_self (by omega) (by omega)),
        hexDigit_lt10_toNat (Nat.mod_lt _ (by omega))]
      omega

theorem natChars_head_ne_zero :
    ∀ n, 1 ≤ n → ∀ c, (natChars n).head? = some c → c ≠ '0' := by
  intro n
  induction n using Nat.strong_induction_on with
  | _ n ih =>
    intro hn c hc
    rw [natChars] at hc
    split at hc
    · next h =>
      simp only [List.head?_cons, Option.some.injEq] at hc
      subst hc
      interval_cases n <;> decide
    · next h =>
      rw [List.head?_append_of_ne_nil _ (natChars_ne_nil (n / 10))] at hc
      exact ih (n / 10) (Nat.div_lt_self (by omega) (by omega))
        (by omega) c hc

theorem takeWhile_append_of_all {p : Char → Bool} {a b : List Char}
    (ha : ∀ c ∈ a, p c = true)
    (hb : ∀ c, b.head? = some c → p c = false) :
    (a ++ b).takeWhile p = a := by
  induction a with
  | nil =>
    cases b with
    | nil => rfl
    | cons c t =>
      simp [List.takeWhile_cons, hb c rfl]
  | cons c t ih =>
    have hc := ha c (List.mem_cons_self c t)
    simp [List.takeWhile_cons, hc,
      ih (fun x hx => ha x (List.mem_cons_of_mem c hx))]

theorem sepOk_head_not_digit {rest : List Char} (h : sepOk rest = true) :
    ∀ c, rest.head? = some c → c.isDigit = false := by
  intro c hc
  cases rest with
  | nil => simp at hc
  | cons d t =>
    simp only [List.head?_cons, Option.some.injEq] at hc
    subst hc
    simp only [sepOk, Bool.or_eq_true, decide_eq_true_eq] at h
    rcases h with ((h | h) | h) | h <;> subst h <;> rfl

theorem sepOk_not_numCont {rest : List Char} (h : sepOk rest = true) :
    (match rest with
     | '.' :: _ => (none : Option (JVal × List Char))
     | 'e' :: _ => none
     | 'E' :: _ => none
     | r => some (.num 0, r)).isSome = true := by
  cases rest with
  | nil => rfl
  | cons d t =>
    simp only [sepOk, Bool.or_eq_true, decide_eq_true_eq] at h
    rcases h with ((h | h) | h) | h <;> subst h <;> rfl


theorem isDigit_toNat {c : Char} (h : c.isDigit = true) :
    48 ≤ c.toNat ∧ c.toNat ≤ 57 := by
  simp only [Char.isDigit, Bool.and_eq_true, decide_eq_true_eq] at h
  exact ⟨h.1, h.2⟩

theorem digit_ne_dash {c : Char} (h : c.isDigit = true) : c ≠ '-' := by
  intro he
  subst he
  simp at h

theorem natChars_no_leading_zero (k : Nat) :
    ¬((natChars k).length > 1 ∧ (natChars k).headD '0' = '0') := by
  rintro ⟨hlen, hhead⟩
  by_cases h : k < 10
  · rw [natChars, dif_pos h] at hlen
    simp at hlen
  · have hk : k / 10 ≥ 1 := by omega
    rw [natChars, dif_neg h] at hhead
    have hne := natChars_ne_nil (k / 10)
    rcases hd : (natChars (k / 10)).head? with _ | c
    · exact hne (List.head?_eq_none_iff.mp hd)
    · rw [List.headD_eq_head?_getD, List.head?_append_of_ne_nil _ hne, hd] at hhead
      exact natChars_head_ne_zero (k / 10) hk c hd hhead

theorem parseNumCore_natChars (neg : Bool) (k : Nat) {rest : List Char}
    (hrest : sepOk rest = true) :
    parseNumCore neg (natChars k ++ rest) =
      some (.num (if neg then -(k : Int) else (k : Int)), rest) := by
  have hdig := takeWhile_append_of_all (natChars_digits k)
    (sepOk_head_not_digit hrest)
  rw [parseNumCore]
  simp only [hdig, List.drop_left, if_neg (by simpa using natChars_ne_nil k),
    if_neg (natChars_no_leading_zero k), digitsToNat_natChars]
  cases rest with
  | nil => rfl
  | cons d t =>
    simp only [sepOk, Bool.or_eq_true, decide_eq_true_eq] at hrest
    rcases hrest with ((h | h) | h) | h <;> subst h <;> rfl

theorem intChars_head (n : Int) :
    ∃ c cs, intChars n = c :: cs ∧ (c = '-' ∨ c.isDigit = true) := by
  rw [intChars]
  split
  · exact ⟨'-', natChars n.natAbs, rfl, Or.inl rfl⟩
  · rcases hd : natChars n.toNat with _ | ⟨c, cs⟩
    · exact absurd hd (natChars_ne_nil _)
    · exact ⟨c, cs, rfl, Or.inr
        (natChars_digits n.toNat c (by rw [hd]; exact List.mem_cons_self c cs))⟩

theorem parseNum_intChars (n : Int) {rest : List Char}
    (hrest : sepOk rest = true) :
    parseNum (intChars n ++ rest) = some (.num n, rest) := by
  rw [intChars]
  split
  · next h =>
    rw [List.cons_append, parseNum, if_pos rfl,
      parseNumCore_natChars true n.natAbs hrest]
    have hn : -((n.natAbs : Nat) : Int) = n := by omega
    simp [hn, abs_of_neg h]
  · next h =>
    have hd := natChars_digits n.toNat
    rcases he : natChars n.toNat with _ | ⟨c, cs⟩
    · exact absurd he (natChars_ne_nil _)
    · have hcd : c.isDigit = true := hd c (by rw [he]; exact List.mem_cons_self c cs)
      have hcne : c ≠ '-' := digit_ne_dash hcd
      have hstep : parseNum (natChars n.toNat ++ rest) =
          parseNumCore false (natChars n.toNat ++ rest) := by
        rw [he, List.cons_append, parseNum, if_neg hcne]
      rw [← he, hstep, parseNumCore_natChars false n.toNat hrest]
      have hn : ((n.toNat : Nat) : Int) = n := by omega
      simp [hn]


theorem hexVal_hexDigit {d : Nat} (h : d < 16) : hexVal (hexDigit d) = some d := by
  interval_cases d <;> rfl

theorem parseStr_escape :
    ∀ cs rest, parseStrChars (escapeChars cs ++ '"' :: rest) = some (cs, rest) := by
  intro cs
  induction cs with
  | nil =>
    intro rest
    show parseStrChars ('"' :: rest) = _
    rw [parseStrChars.eq_def]
    simp
  | cons c cs ih =>
    intro rest
    show parseStrChars (escapeChar c ++ escapeChars cs ++ '"' :: rest) = _
    rw [escapeChar]
    by_cases h1 : c = '"'
    · subst h1; simp [parseStrChars, ih]
    by_cases h2 : c = '\\'
    · subst h2; simp [parseStrChars, ih]
    by_cases h3 : c = '\n'
    · subst h3; simp [parseStrChars, ih]
    by_cases h4 : c = '\t'
    · subst h4; simp [parseStrChars, ih]
    by_cases h5 : c = '\r'
    · subst h5; simp [parseStrChars, ih]
    by_cases h6 : c = '\x08'
    · subst h6; simp [parseStrChars, ih]
    by_cases h7 : c = '\x0c'
    · subst h7; simp [parseStrChars, ih]
    by_cases h8 : c.toNat < 0x20
    · rw [if_neg h1, if_neg h2, if_neg h3, if_neg h4, if_neg h5, if_neg h6,
        if_neg h7, if_pos h8]
      have hhi : c.toNat / 16 < 16 := by omega
      have hlo : c.toNat % 16 < 16 := by omega
      have hz : hexVal '0' = some 0 := rfl
      have hvalid : (((0 * 16 + 0) * 16 + c.toNat / 16) * 16 + c.toNat % 16).isValidChar := by
        left
        omega
      have hcode : (((0 * 16 + 0) * 16 + c.toNat / 16) * 16 + c.toNat % 16)
          = c.toNat := by omega
      simp only [List.cons_append, List.nil_append]
      rw [parseStrChars.eq_def]
      simp only [if_neg (show ¬('\\' : Char) = '"' by decide), if_pos rfl,
        hexVal_hexDigit hhi, hexVal_hexDigit hlo, hz]
      rw [ih]
      simp only [if_true, Option.map_some']
      rw [hcode, Char.ofNat_toNat]
      rw [dif_pos (by left; omega)]
    · rw [if_neg h1, if_neg h2, if_neg h3, if_neg h4, if_neg h5, if_neg h6,
        if_neg h7, if_neg h8]
      simp only [List.cons_append, List.nil_append]
      rw [parseStrChars.eq_def]
      simp only [if_neg h1, if_neg h2, if_neg h8, ih, Option.map_some']


/-- No two adjacent characters form the sequence newline-dash.  Dumped
JSON satisfies this, which pins down where the closing fence regex can
first match. -/
def noNlDash : List Char → Bool
  | [] => true
  | [_] => true
  | a :: b :: t => !(a = '\n' && b = '-') && noNlDash (b :: t)

theorem noNlDash_cons_of_ne {a : Char} (ha : a ≠ '\n') {t : List Char}
    (ht : noNlDash t = true) : noNlDash (a :: t) = true := by
  cases t with
  | nil => rfl
  | cons b u => simp [noNlDash, ha, ht]

theorem noNlDash_cons_nl {t : List Char} (ht : noNlDash t = true)
    (hh : ∀ c, t.head? = some c → c ≠ '-') : noNlDash ('\n' :: t) = true := by
  cases t with
  | nil => rfl
  | cons b u => simp [noNlDash, ht, hh b rfl]

theorem noNlDash_tail {a : Char} {t : List Char}
    (h : noNlDash (a :: t) = true) : noNlDash t = true := by
  cases t with
  | nil => rfl
  | cons b u =>
    simp only [noNlDash, Bool.and_eq_true] at h
    exact h.2

theorem noNlDash_of_no_nl : ∀ {l : List Char}, (∀ c ∈ l, c ≠ '\n') →
    noNlDash l = true := by
  intro l
  induction l with
  | nil => intro _; rfl
  | cons a t ih =>
    intro h
    exact noNlDash_cons_of_ne (h a (List.mem_cons_self a t))
      (ih (fun c hc => h c (List.mem_cons_of_mem a hc)))

theorem noNlDash_append {a b : List Char} (h1 : noNlDash a = true)
    (h2 : noNlDash b = true)
    (hab : a.getLast? = some '\n' → ∀ c, b.head? = some c → c ≠ '-') :
    noNlDash (a ++ b) = true := by
  induction a with
  | nil => simpa using h2
  | cons x t ih =>
    cases t with
    | nil =>
      by_cases hx : x = '\n'
      · subst hx
        exact noNlDash_cons_nl h2 (hab rfl)
      · exact noNlDash_cons_of_ne hx h2
    | cons y u =>
      simp only [noNlDash, Bool.and_eq_true] at h1
      have hrec := ih h1.2 (fun hl c hc =>
        hab (by rw [List.getLast?_cons_cons]; exact hl) c hc)
      simp only [List.cons_append]
      have : noNlDash (x :: ((y :: u) ++ b)) = true := by
        simp only [List.cons_append] at hrec ⊢
        simp [noNlDash, hrec, h1.1]
      simpa using this

theorem hexDigit_mem (d : Nat) :
    hexDigit d ∈ String.toList "0123456789abcdef" := by
  by_cases h : d < 16
  · interval_cases d <;> decide
  · rw [hexDigit, List.getD_eq_default]
    · decide
    · simp only [not_lt] at h
      simpa using h

theorem hexDigit_ne_nl (d : Nat) : hexDigit d ≠ '\n' := by
  have := hexDigit_mem d
  intro he
  rw [he] at this
  simp at this

theorem escapeChar_ne_nl (c : Char) : ∀ e ∈ escapeChar c, e ≠ '\n' := by
  intro e he
  rw [escapeChar] at he
  split_ifs at he with h1 h2 h3 h4 h5 h6 h7 h8
  all_goals simp only [List.mem_cons, List.mem_singleton,
    List.not_mem_nil, or_false] at he
  · rcases he with h | h <;> subst h <;> decide
  · rcases he with h | h <;> subst h <;> decide
  · rcases he with h | h <;> subst h <;> decide
  · rcases he with h | h <;> subst h <;> decide
  · rcases he with h | h <;> subst h <;> decide
  · rcases he with h | h <;> subst h <;> decide
  · rcases he with h | h <;> subst h <;> decide
  · rcases he with h | h | h | h | h | h
    · subst h; decide
    · subst h; decide
    · subst h; decide
    · subst h; decide
    · subst h; exact hexDigit_ne_nl _
    · subst h; exact hexDigit_ne_nl _
  · subst he
    intro hc
    subst hc
    exact h3 rfl

theorem escapeChars_ne_nl : ∀ {l : List Char}, ∀ e ∈ escapeChars l, e ≠ '\n' := by
  intro l
  induction l with
  | nil => intro e he; simp [escapeChars] at he
  | cons c t ih =>
    intro e he
    rw [escapeChars] at he
    rcases List.mem_append.mp he with h | h
    · exact escapeChar_ne_nl c e h
    · exact ih e h

theorem noNlDash_quoteStr (k : String) : noNlDash (quoteStr k) = true := by
  apply noNlDash_of_no_nl
  intro c hc
  rw [quoteStr] at hc
  rcases List.mem_cons.mp hc with h | h
  · subst h; decide
  · rcases List.mem_append.mp h with h | h
    · exact escapeChars_ne_nl c h
    · simp only [List.mem_singleton] at h
      subst h
      decide

theorem digit_ne_nl {c : Char} (h : c.isDigit = true) : c ≠ '\n' := by
  intro he
  subst he
  simp at h

theorem noNlDash_intChars (n : Int) : noNlDash (intChars n) = true := by
  apply noNlDash_of_no_nl
  intro c hc
  rw [intChars] at hc
  split at hc
  · rcases List.mem_cons.mp hc with h | h
    · subst h; decide
    · exact digit_ne_nl (natChars_digits _ c h)
  · exact digit_ne_nl (natChars_digits _ c hc)

theorem spaces_getLast {n : Nat} (h : 1 ≤ n) :
    (spaces n).getLast? = some ' ' := by
  rw [spaces]
  cases n with
  | zero => omega
  | succ m =>
    rw [List.getLast?_eq_getLast _ (by simp), List.getLast_replicate]

theorem noNlDash_spaces_append {n : Nat} {X : List Char}
    (h : noNlDash X = true) : noNlDash (spaces n ++ X) = true := by
  induction n with
  | zero => simpa [spaces] using h
  | succ m ih =>
    rw [spaces, List.replicate_succ]
    exact noNlDash_cons_of_ne (by decide) ih


/-- The characters a dumped JSON value can start with. -/
def valueStart (c : Char) : Bool :=
  c = '{' || c = '[' || c = '"' || c = 'n' || c = 't' || c = 'f' ||
    c = '-' || c.isDigit

theorem digit_cases {c : Char} (h : c.isDigit = true) :
    c ∈ ['0', '1', '2', '3', '4', '5', '6', '7', '8', '9'] := by
  obtain ⟨h1, h2⟩ := isDigit_toNat h
  have hc : Char.ofNat c.toNat = c := Char.ofNat_toNat c
  interval_cases hn : c.toNat <;> rw [← hc] <;> decide

theorem valueStart_mem {c : Char} (h : valueStart c = true) :
    c ∈ ['{', '[', '"', 'n', 't', 'f', '-',
         '0', '1', '2', '3', '4', '5', '6', '7', '8', '9'] := by
  simp only [valueStart, Bool.or_eq_true, decide_eq_true_eq] at h
  rcases h with (((((((h | h) | h) | h) | h) | h) | h) | hd)
  · subst h; decide
  · subst h; decide
  · subst h; decide
  · subst h; decide
  · subst h; decide
  · subst h; decide
  · subst h; decide
  · have hm := digit_cases hd
    fin_cases hm <;> decide

theorem valueStart_not_jsonWs {c : Char} (h : valueStart c = true) :
    jsonWs c = false := by
  have hm := valueStart_mem h
  fin_cases hm <;> decide

theorem valueStart_not_pyws {c : Char} (h : valueStart c = true) :
    Frontmatter.isPyWs c = false := by
  have hm := valueStart_mem h
  fin_cases hm <;> decide

theorem valueStart_ne_rbracket {c : Char} (h : valueStart c = true) :
    c ≠ ']' := by
  have hm := valueStart_mem h
  fin_cases hm <;> decide

theorem valueStart_ne_rbrace {c : Char} (h : valueStart c = true) :
    c ≠ '}' := by
  have hm := valueStart_mem h
  fin_cases hm <;> decide

theorem dumpVal_head (ind : Nat) (v : JVal) :
    ∃ c t, dumpVal ind v = c :: t ∧ valueStart c = true := by
  cases v with
  | null => exact ⟨'n', _, by rw [dumpVal], by decide⟩
  | bool b => cases b with
    | true => exact ⟨'t', _, by rw [dumpVal], by decide⟩
    | false => exact ⟨'f', _, by rw [dumpVal], by decide⟩
  | num n =>
    obtain ⟨c, cs, hc, hd⟩ := intChars_head n
    refine ⟨c, cs, by rw [dumpVal]; exact hc, ?_⟩
    rcases hd with h | h
    · simp [valueStart, h]
    · simp [valueStart, h]
  | str s => exact ⟨'"', _, by rw [dumpVal, quoteStr]; rfl, by decide⟩
  | arr xs => cases xs with
    | nil => exact ⟨'[', _, by rw [dumpVal], by decide⟩
    | cons x t => exact ⟨'[', _, by rw [dumpVal]; rfl, by decide⟩
  | obj fs => cases fs with
    | nil => exact ⟨'{', _, by rw [dumpVal], by decide⟩
    | cons f t => exact ⟨'{', _, by rw [dumpVal]; rfl, by decide⟩

theorem noNlDash_nl_spaces {ind : Nat} {X : List Char}
    (hX : noNlDash X = true)
    (hhead : ∀ c, X.head? = some c → c ≠ '-') :
    noNlDash ('\n' :: spaces ind ++ X) = true := by
  cases ind with
  | zero => exact noNlDash_cons_nl hX hhead
  | succ m =>
    rw [spaces, List.replicate_succ]
    refine noNlDash_cons_nl (noNlDash_cons_of_ne (by decide)
      (noNlDash_spaces_append hX)) ?_
    intro c hc
    simp only [List.append_eq, List.cons_append, List.head?_cons,
      Option.some.injEq] at hc
    subst hc
    decide

theorem noNlDash_singleton (c : Char) : noNlDash [c] = true := rfl

theorem noNlDash_nl_spaces_ge {ind : Nat} (hind : 1 ≤ ind) {X : List Char}
    (hX : noNlDash X = true) : noNlDash ('\n' :: spaces ind ++ X) = true := by
  cases ind with
  | zero => omega
  | succ m =>
    rw [spaces, List.replicate_succ]
    refine noNlDash_cons_nl (noNlDash_cons_of_ne (by decide)
      (noNlDash_spaces_append hX)) ?_
    intro c hc
    simp only [List.append_eq, List.cons_append, List.head?_cons,
      Option.some.injEq] at hc
    subst hc
    decide

/-- The whole of a dumped value contains no newline-dash pair. -/
theorem noNlDash_dump_pack : ∀ n : Nat,
    (∀ ind v, sizeOf v ≤ n → noNlDash (dumpVal ind v) = true) ∧
    (∀ ind x xs, 1 ≤ ind → sizeOf x + sizeOf xs ≤ n →
      noNlDash (dumpSeq ind x xs) = true) ∧
    (∀ ind k v fs, 1 ≤ ind → sizeOf v + sizeOf fs ≤ n →
      noNlDash (dumpFields ind k v fs) = true) := by
  intro n
  induction n using Nat.strong_induction_on with
  | _ n ih =>
    have hval : ∀ ind v, sizeOf v ≤ n → noNlDash (dumpVal ind v) = true := by
      intro ind v hs
      cases v with
      | null => rw [dumpVal]; decide
      | bool b => cases b <;> (rw [dumpVal]; decide)
      | num m => rw [dumpVal]; exact noNlDash_intChars m
      | str s => rw [dumpVal]; exact noNlDash_quoteStr s
      | arr xs =>
        cases xs with
        | nil => rw [dumpVal]; decide
        | cons x t =>
          rw [dumpVal]
          have hsz : sizeOf x + sizeOf t ≤ n - 2 := by
            simp only [JVal.arr.sizeOf_spec, List.cons.sizeOf_spec] at hs
            omega
          have hn2 : n - 2 < n := by
            simp only [JVal.arr.sizeOf_spec, List.cons.sizeOf_spec] at hs
            have : 0 < sizeOf x := by cases x <;> simp <;> omega
            omega
          have hseq := (ih (n - 2) hn2).2.1 (ind + 2) x t (by omega) hsz
          have hclose : noNlDash ('\n' :: spaces ind ++ [']']) = true :=
            noNlDash_nl_spaces (noNlDash_singleton _)
              (by intro c hc; simp at hc; subst hc; decide)
          have hmid : noNlDash (dumpSeq (ind + 2) x t ++
              ('\n' :: spaces ind ++ [']'])) = true := by
            refine noNlDash_append hseq hclose ?_
            intro _ c hc
            simp only [List.cons_append, List.head?_cons,
              Option.some.injEq] at hc
            subst hc
            decide
          have hA : noNlDash (spaces (ind + 2) ++ (dumpSeq (ind + 2) x t ++
              ('\n' :: spaces ind ++ [']']))) = true :=
            noNlDash_spaces_append hmid
          have hhd : ∀ c, (spaces (ind + 2) ++ (dumpSeq (ind + 2) x t ++
              ('\n' :: spaces ind ++ [']']))).head? = some c → c ≠ '-' := by
            intro c hc
            rw [spaces, List.replicate_succ] at hc
            simp only [List.cons_append, List.head?_cons,
              Option.some.injEq] at hc
            subst hc
            decide
          have := noNlDash_cons_of_ne (show ('[' : Char) ≠ '\n' by decide)
            (noNlDash_cons_nl hA hhd)
          simpa [List.append_assoc] using this
      | obj fs =>
        cases fs with
        | nil => rw [dumpVal]; decide
        | cons f t =>
          rw [dumpVal]
          have hsz : sizeOf f.2 + sizeOf t ≤ n - 2 := by
            obtain ⟨k, v⟩ := f
            simp only [JVal.obj.sizeOf_spec, List.cons.sizeOf_spec,
              Prod.mk.sizeOf_spec] at hs ⊢
            omega
          have hn2 : n - 2 < n := by
            obtain ⟨k, v⟩ := f
            simp only [JVal.obj.sizeOf_spec, List.cons.sizeOf_spec,
              Prod.mk.sizeOf_spec] at hs
            have : 0 < sizeOf v := by cases v <;> simp <;> omega
            omega
          have hseq := (ih (n - 2) hn2).2.2 (ind + 2) f.1 f.2 t (by omega) hsz
          have hclose : noNlDash ('\n' :: spaces ind ++ ['}']) = true :=
            noNlDash_nl_spaces (noNlDash_singleton _)
              (by intro c hc; simp at hc; subst hc; decide)
          have hmid : noNlDash (dumpFields (ind + 2) f.1 f.2 t ++
              ('\n' :: spaces ind ++ ['}'])) = true := by
            refine noNlDash_append hseq hclose ?_
            intro _ c hc
            simp only [List.cons_append, List.head?_cons,
              Option.some.injEq] at hc
            subst hc
            decide
          have hA : noNlDash (spaces (ind + 2) ++ (dumpFields (ind + 2) f.1 f.2 t ++
              ('\n' :: spaces ind ++ ['}']))) = true :=
            noNlDash_spaces_append hmid
          have hhd : ∀ c, (spaces (ind + 2) ++ (dumpFields (ind + 2) f.1 f.2 t ++
              ('\n' :: spaces ind ++ ['}']))).head? = some c → c ≠ '-' := by
            intro c hc
            rw [spaces, List.replicate_succ] at hc
            simp only [List.cons_append, List.head?_cons,
              Option.some.injEq] at hc
            subst hc
            decide
          have := noNlDash_cons_of_ne (show ('{' : Char) ≠ '\n' by decide)
            (noNlDash_cons_nl hA hhd)
          simpa [List.append_assoc] using this
    refine ⟨hval, ?_, ?_⟩
    · intro ind x xs hind hs
      cases xs with
      | nil =>
        rw [dumpSeq.eq_def]
        simpa using hval ind x (by simp at hs; omega)
      | cons y ys =>
        rw [dumpSeq.eq_def]
        have hx : noNlDash (dumpVal ind x) = true := by
          refine hval ind x ?_
          simp only [List.cons.sizeOf_spec] at hs
          omega
        have hm : sizeOf y + sizeOf ys ≤ n - 2 := by
          simp only [List.cons.sizeOf_spec] at hs
          have : 0 < sizeOf x := by cases x <;> simp <;> omega
          omega
        have hn2 : n - 2 < n := by
          simp only [List.cons.sizeOf_spec] at hs
          have h0 : 0 < sizeOf x := by cases x <;> simp <;> omega
          have h1 : 0 < sizeOf y := by cases y <;> simp <;> omega
          omega
        have hrest := (ih (n - 2) hn2).2.1 ind y ys hind hm
        have htail : noNlDash (',' :: '\n' :: spaces ind ++
            dumpSeq ind y ys) = true := by
          refine noNlDash_cons_of_ne (by decide) ?_
          refine noNlDash_nl_spaces_ge hind hrest
        refine noNlDash_append hx htail ?_
        intro _ c hc
        simp only [List.cons_append, List.head?_cons, Option.some.injEq] at hc
        subst hc
        decide
    · intro ind k v fs hind hs
      have hv : noNlDash (dumpVal ind v) = true := hval ind v (by omega)
      cases fs with
      | nil =>
        rw [dumpFields.eq_def]
        have hcolon : noNlDash (':' :: ' ' :: (dumpVal ind v ++ [])) = true := by
          refine noNlDash_cons_of_ne (by decide) (noNlDash_cons_of_ne (by decide) ?_)
          simpa using hv
        have := noNlDash_append (noNlDash_quoteStr k) hcolon (by
          intro _ c hc
          simp only [List.head?_cons, Option.some.injEq] at hc
          subst hc
          decide)
        simpa [List.append_assoc] using this
      | cons g gs =>
        rw [dumpFields.eq_def]
        have hm : sizeOf g.2 + sizeOf gs ≤ n - 2 := by
          obtain ⟨gk, gv⟩ := g
          simp only [List.cons.sizeOf_spec, Prod.mk.sizeOf_spec] at hs ⊢
          omega
        have hn2 : n - 2 < n := by
          obtain ⟨gk, gv⟩ := g
          simp only [List.cons.sizeOf_spec, Prod.mk.sizeOf_spec] at hs
          have h1 : 0 < sizeOf gv := by cases gv <;> simp <;> omega
          omega
        have hrest := (ih (n - 2) hn2).2.2 ind g.1 g.2 gs hind hm
        have htl : noNlDash (',' :: '\n' :: spaces ind ++
            dumpFields ind g.1 g.2 gs) = true :=
          noNlDash_cons_of_ne (by decide) (noNlDash_nl_spaces_ge hind hrest)
        have hX : noNlDash (dumpVal ind v ++ (',' :: '\n' :: spaces ind ++
            dumpFields ind g.1 g.2 gs)) = true := by
          refine noNlDash_append hv htl ?_
          intro _ c hc
          simp only [List.cons_append, List.head?_cons, Option.some.injEq] at hc
          subst hc
          decide
        have hcolon : noNlDash (':' :: ' ' :: (dumpVal ind v ++
            (',' :: '\n' :: spaces ind ++ dumpFields ind g.1 g.2 gs))) = true :=
          noNlDash_cons_of_ne (by decide) (noNlDash_cons_of_ne (by decide) hX)
        have := noNlDash_append (noNlDash_quoteStr k) hcolon (by
          intro _ c hc
          simp only [List.head?_cons, Option.some.injEq] at hc
          subst hc
          decide)
        simpa [List.append_assoc] using this


theorem skipWs_cons_not {c : Char} (h : jsonWs c = false) (t : List Char) :
    skipWs (c :: t) = c :: t := by
  simp [skipWs, List.dropWhile_cons, h]

theorem skipWs_nl (t : List Char) : skipWs ('\n' :: t) = skipWs t := by
  simp [skipWs, List.dropWhile_cons, jsonWs]

theorem skipWs_spaces (n : Nat) (l : List Char) :
    skipWs (spaces n ++ l) = skipWs l := by
  induction n with
  | zero => simp [spaces]
  | succ m ih =>
    rw [spaces, List.replicate_succ]
    simpa [skipWs, List.dropWhile_cons, jsonWs] using ih

theorem skipWs_dump (ind : Nat) (v : JVal) (rest : List Char) :
    skipWs (dumpVal ind v ++ rest) = dumpVal ind v ++ rest := by
  obtain ⟨c, t, hc, hv⟩ := dumpVal_head ind v
  rw [hc, List.cons_append]
  exact skipWs_cons_not (valueStart_not_jsonWs hv) _

theorem setKey_not_mem {acc : List (String × JVal)} {k : String}
    (h : k ∉ acc.map Prod.fst) (v : JVal) :
    JVal.setKey acc k v = acc ++ [(k, v)] := by
  induction acc with
  | nil => rfl
  | cons f t ih =>
    rw [JVal.setKey]
    have hk : ¬f.1 = k := by
      intro he
      exact h (by simp [he])
    rw [if_neg hk, ih (fun hm => h (by simp [List.mem_cons]; right; simpa using hm))]
    rfl

theorem nodupKeys_iff (l : List String) : nodupKeys l = true ↔ l.Nodup := by
  induction l with
  | nil => simp [nodupKeys]
  | cons k t ih =>
    rw [nodupKeys]
    simp [List.nodup_cons, ih, List.elem_iff, and_comm]

theorem nodup_mid_not_mem {A B : List String} {k : String}
    (h : (A ++ k :: B).Nodup) : k ∉ A := by
  intro hk
  have := List.disjoint_of_nodup_append h
  exact this hk (List.mem_cons_self k B)


theorem skipWs_space (l : List Char) : skipWs (' ' :: l) = skipWs l := by
  simp [skipWs, List.dropWhile_cons, jsonWs]

theorem dumpSeq_split (ind : Nat) (x : JVal) (xs : List JVal) :
    dumpSeq ind x xs = dumpVal ind x ++
      (match xs with
       | [] => []
       | y :: ys => ',' :: '\n' :: spaces ind ++ dumpSeq ind y ys) := by
  rw [dumpSeq.eq_def]

theorem dumpFields_split (ind : Nat) (k : String) (v : JVal)
    (fs : List (String × JVal)) :
    dumpFields ind k v fs = quoteStr k ++ ':' :: ' ' :: dumpVal ind v ++
      (match fs with
       | [] => []
       | g :: gs => ',' :: '\n' :: spaces ind ++ dumpFields ind g.1 g.2 gs) := by
  rw [dumpFields.eq_def]

theorem dumpSeq_head (ind : Nat) (x : JVal) (xs : List JVal) :
    ∃ c t, dumpSeq ind x xs = c :: t ∧ valueStart c = true := by
  obtain ⟨c, t, hc, hv⟩ := dumpVal_head ind x
  exact ⟨c, _, by rw [dumpSeq_split, hc, List.cons_append], hv⟩

theorem skipWs_dumpSeq (ind : Nat) (x : JVal) (xs : List JVal)
    (rest : List Char) :
    skipWs (dumpSeq ind x xs ++ rest) = dumpSeq ind x xs ++ rest := by
  obtain ⟨c, t, hc, hv⟩ := dumpSeq_head ind x xs
  rw [hc, List.cons_append]
  exact skipWs_cons_not (valueStart_not_jsonWs hv) _

theorem dumpFields_head (ind : Nat) (k : String) (v : JVal)
    (fs : List (String × JVal)) :
    ∃ t, dumpFields ind k v fs = '"' :: t := by
  have h := dumpFields_split ind k v fs
  rw [quoteStr, List.cons_append] at h
  exact ⟨_, h⟩

theorem skipWs_dumpFields (ind : Nat) (k : String) (v : JVal)
    (fs : List (String × JVal)) (rest : List Char) :
    skipWs (dumpFields ind k v fs ++ rest) = dumpFields ind k v fs ++ rest := by
  obtain ⟨t, hc⟩ := dumpFields_head ind k v fs
  rw [hc, List.cons_append]
  exact skipWs_cons_not (by decide) _

theorem dumpVal_length_pos (ind : Nat) (v : JVal) :
    1 ≤ (dumpVal ind v).length := by
  obtain ⟨c, t, hc, _⟩ := dumpVal_head ind v
  rw [hc]
  simp

theorem quoteStr_length (k : String) :
    (quoteStr k).length = 2 + (escapeChars k.toList).length := by
  rw [quoteStr]
  simp
  omega

theorem sepOk_nl (t : List Char) : sepOk ('\n' :: t) = true := rfl

theorem sepOk_comma (t : List Char) : sepOk (',' :: t) = true := rfl

theorem parseVal_arr_entry (fuel : Nat) (r : List Char) :
    parseVal (fuel + 1) ('[' :: r) =
      (match skipWs r with
       | ']' :: r2 => some (.arr [], r2)
       | _ => parseItems fuel (skipWs r) []) := rfl

theorem parseVal_obj_entry (fuel : Nat) (r : List Char) :
    parseVal (fuel + 1) ('{' :: r) =
      (match skipWs r with
       | '}' :: r2 => some (.obj [], r2)
       | _ => parseFields fuel (skipWs r) []) := rfl

theorem parseVal_num_entry (fuel : Nat) (c : Char) (t : List Char)
    (h : (c = '-' || c.isDigit) = true) :
    parseVal (fuel + 1) (c :: t) = parseNum (c :: t) := by
  rw [parseVal.eq_def]
  simp only []
  rw [if_pos h]

theorem parseVal_arr_go (fuel : Nat) (r : List Char) (c0 : Char)
    (t0 : List Char) (h : skipWs r = c0 :: t0) (hne : c0 ≠ ']') :
    parseVal (fuel + 1) ('[' :: r) = parseItems fuel (c0 :: t0) [] := by
  rw [parseVal_arr_entry, h]
  split
  · next heq => rw [List.cons.injEq] at heq; exact absurd heq.1 hne
  · rfl

theorem parseVal_obj_go (fuel : Nat) (r : List Char) (c0 : Char)
    (t0 : List Char) (h : skipWs r = c0 :: t0) (hne : c0 ≠ '}') :
    parseVal (fuel + 1) ('{' :: r) = parseFields fuel (c0 :: t0) [] := by
  rw [parseVal_obj_entry, h]
  split
  · next heq => rw [List.cons.injEq] at heq; exact absurd heq.1 hne
  · rfl

theorem parseItems_entry (fuel : Nat) (s : List Char) (acc : List JVal) :
    parseItems (fuel + 1) s acc =
      (match parseVal fuel s with
       | none => none
       | some (v, r) =>
         match skipWs r with
         | ',' :: r2 => parseItems fuel (skipWs r2) (acc ++ [v])
         | ']' :: r2 => some (.arr (acc ++ [v]), r2)
         | _ => none) := rfl

theorem parseFields_entry (fuel : Nat) (r : List Char)
    (acc : List (String × JVal)) :
    parseFields (fuel + 1) ('"' :: r) acc =
      (match parseStrChars r with
       | none => none
       | some (kcs, r1) =>
         match skipWs r1 with
         | ':' :: r2 =>
           match parseVal fuel (skipWs r2) with
           | none => none
           | some (v, r3) =>
             match skipWs r3 with
             | ',' :: r4 =>
                 parseFields fuel (skipWs r4) (JVal.setKey acc kcs.asString v)
             | '}' :: r4 => some (.obj (JVal.setKey acc kcs.asString v), r4)
             | _ => none
         | _ => none) := rfl

/-- Parsing inverts dumping: one simultaneous induction on the fuel for
values, array items and object members. -/
theorem parse_dump_pack : ∀ fuel : Nat,
    (∀ ind v rest, JWF v = true → (dumpVal ind v).length < fuel →
      sepOk rest = true →
      parseVal fuel (dumpVal ind v ++ rest) = some (v, rest)) ∧
    (∀ ind m x xs acc rest, JWFList (x :: xs) = true →
      (dumpSeq ind x xs).length + 1 < fuel →
      parseItems fuel (dumpSeq ind x xs ++ '\n' :: spaces m ++ ']' :: rest) acc
        = some (.arr (acc ++ x :: xs), rest)) ∧
    (∀ ind m k v fs acc rest, JWFFields ((k, v) :: fs) = true →
      (acc.map Prod.fst ++ k :: fs.map Prod.fst).Nodup →
      (dumpFields ind k v fs).length + 1 < fuel →
      parseFields fuel
          (dumpFields ind k v fs ++ '\n' :: spaces m ++ '}' :: rest) acc
        = some (.obj (acc ++ (k, v) :: fs), rest)) := by
  intro fuel
  induction fuel using Nat.strong_induction_on with
  | _ fuel ih =>
    cases fuel with
    | zero =>
      refine ⟨?_, ?_, ?_⟩
      · intro ind v rest _ hlen _
        omega
      · intro ind m x xs acc rest _ hlen
        omega
      · intro ind m k v fs acc rest _ _ hlen
        omega
    | succ f =>
      have ihf := ih f (by omega)
      refine ⟨?_, ?_, ?_⟩
      · -- values
        intro ind v rest hwf hlen hsep
        cases v with
        | null => rw [dumpVal]; rfl
        | bool b => cases b <;> (rw [dumpVal]; rfl)
        | num n =>
          rw [dumpVal]
          obtain ⟨c, cs, hc, hd⟩ := intChars_head n
          rw [hc, List.cons_append,
            parseVal_num_entry f c (cs ++ rest) (by
              rcases hd with h | h
              · simp [h]
              · simp [h]),
            ← List.cons_append, ← hc, parseNum_intChars n hsep]
        | str s =>
          rw [dumpVal, quoteStr]
          simp only [List.cons_append, List.append_assoc, List.singleton_append]
          show (parseStrChars (escapeChars s.toList ++ '"' :: rest)).map
            (fun p => (JVal.str p.1.asString, p.2)) = _
          rw [parseStr_escape]
          simp only [Option.map_some']
          rfl
        | arr xs =>
          cases xs with
          | nil =>
            rw [dumpVal]
            show parseVal (f + 1) ('[' :: ']' :: rest) = some (JVal.arr [], rest)
            rw [parseVal_arr_entry, skipWs_cons_not (by decide)]
            rfl
          | cons x t =>
            rw [dumpVal] at hlen ⊢
            rw [JWF] at hwf
            obtain ⟨c0, t0, hc0, hv0⟩ := dumpSeq_head (ind + 2) x t
            simp only [List.cons_append, List.append_assoc,
              List.singleton_append, List.nil_append] at hlen ⊢
            have hskip : skipWs ('\n' :: (spaces (ind + 2) ++
                (dumpSeq (ind + 2) x t ++ ('\n' :: (spaces ind ++ (']' :: rest))))))
                = c0 :: (t0 ++ ('\n' :: (spaces ind ++ (']' :: rest)))) := by
              rw [skipWs_nl, skipWs_spaces, hc0, List.cons_append]
              exact skipWs_cons_not (valueStart_not_jsonWs hv0) _
            rw [parseVal_arr_go f _ c0 _ hskip (valueStart_ne_rbracket hv0),
              ← List.cons_append, ← hc0]
            have hlen2 : (dumpSeq (ind + 2) x t).length + 1 < f := by
              simp only [List.length_cons, List.length_append, spaces,
                List.length_replicate] at hlen
              omega
            have := ihf.2.1 (ind + 2) ind x t [] rest hwf hlen2
            simpa using this
        | obj fs =>
          cases fs with
          | nil =>
            rw [dumpVal]
            show parseVal (f + 1) ('{' :: '}' :: rest) = some (JVal.obj [], rest)
            rw [parseVal_obj_entry, skipWs_cons_not (by decide)]
            rfl
          | cons g t =>
            obtain ⟨k, v⟩ := g
            rw [dumpVal] at hlen ⊢
            rw [JWF] at hwf
            simp only [Bool.and_eq_true] at hwf
            obtain ⟨t1, hf1⟩ := dumpFields_head (ind + 2) k v t
            simp only [List.cons_append, List.append_assoc,
              List.singleton_append, List.nil_append] at hlen ⊢
            have hskip : skipWs ('\n' :: (spaces (ind + 2) ++
                (dumpFields (ind + 2) k v t ++
                  ('\n' :: (spaces ind ++ ('}' :: rest))))))
                = '"' :: (t1 ++ ('\n' :: (spaces ind ++ ('}' :: rest)))) := by
              rw [skipWs_nl, skipWs_spaces, hf1, List.cons_append]
              exact skipWs_cons_not (by decide) _
            rw [parseVal_obj_go f _ '"' _ hskip (by decide),
              ← List.cons_append, ← hf1]
            have hlen2 : (dumpFields (ind + 2) k v t).length + 1 < f := by
              simp only [List.length_cons, List.length_append, spaces,
                List.length_replicate] at hlen
              omega
            have hnd : (([] : List (String × JVal)).map Prod.fst ++
                k :: t.map Prod.fst).Nodup := by
              simp only [List.map_nil, List.nil_append]
              have := hwf.1
              rw [nodupKeys_iff] at this
              simpa using this
            have := ihf.2.2 (ind + 2) ind k v t [] rest hwf.2 hnd hlen2
            simpa using this
      · -- array items
        intro ind m x xs acc rest hwf hlen
        rw [JWFList, Bool.and_eq_true] at hwf
        rw [dumpSeq_split] at hlen ⊢
        cases xs with
        | nil =>
          simp only [List.cons_append, List.append_assoc, List.nil_append,
            List.append_nil] at hlen ⊢
          rw [parseItems_entry]
          have hlx : (dumpVal ind x).length < f := by
            omega
          rw [ihf.1 ind x _ hwf.1 hlx (sepOk_nl _)]
          show (match skipWs ('\n' :: (spaces m ++ ']' :: rest)) with
            | ',' :: r2 => parseItems f (skipWs r2) (acc ++ [x])
            | ']' :: r2 => some (JVal.arr (acc ++ [x]), r2)
            | _ => none) = some (JVal.arr (acc ++ [x]), rest)
          rw [skipWs_nl, skipWs_spaces,
            skipWs_cons_not (by decide : jsonWs ']' = false)]
          rfl
        | cons y ys =>
          simp only [List.cons_append, List.append_assoc, List.nil_append,
            List.append_nil] at hlen ⊢
          rw [parseItems_entry]
          have hlx : (dumpVal ind x).length < f := by
            simp only [List.length_append, List.length_cons, spaces,
              List.length_replicate] at hlen
            have := dumpVal_length_pos ind y
            omega
          rw [ihf.1 ind x _ hwf.1 hlx (sepOk_comma _)]
          show (match skipWs (',' :: '\n' :: (spaces ind ++ (dumpSeq ind y ys ++
              '\n' :: (spaces m ++ ']' :: rest)))) with
            | ',' :: r2 => parseItems f (skipWs r2) (acc ++ [x])
            | ']' :: r2 => some (JVal.arr (acc ++ [x]), r2)
            | _ => none) = some (JVal.arr (acc ++ x :: y :: ys), rest)
          rw [skipWs_cons_not (by decide : jsonWs ',' = false)]
          show parseItems f (skipWs ('\n' :: (spaces ind ++ (dumpSeq ind y ys ++
              '\n' :: (spaces m ++ ']' :: rest))))) (acc ++ [x]) =
            some (JVal.arr (acc ++ x :: y :: ys), rest)
          rw [skipWs_nl, skipWs_spaces, skipWs_dumpSeq]
          have hlen2 : (dumpSeq ind y ys).length + 1 < f := by
            simp only [List.length_append, List.length_cons, spaces,
              List.length_replicate] at hlen
            have := dumpVal_length_pos ind x
            omega
          have hrec := ihf.2.1 ind m y ys (acc ++ [x]) rest hwf.2 hlen2
          simp only [List.cons_append, List.append_assoc] at hrec
          rw [hrec]
          simp
      · -- object members
        intro ind m k v fs acc rest hwf hnd hlen
        rw [JWFFields, Bool.and_eq_true] at hwf
        have hknotin : k ∉ acc.map Prod.fst := nodup_mid_not_mem hnd
        rw [dumpFields_split, quoteStr] at hlen ⊢
        cases fs with
        | nil =>
          simp only [List.cons_append, List.append_assoc, List.nil_append,
            List.append_nil] at hlen ⊢
          rw [parseFields_entry]
          rw [parseStr_escape k.toList _]
          show (match skipWs (':' :: ' ' :: (dumpVal ind v ++
              '\n' :: (spaces m ++ '}' :: rest))) with
            | ':' :: r2 =>
              match parseVal f (skipWs r2) with
              | none => none
              | some (v2, r3) =>
                match skipWs r3 with
                | ',' :: r4 =>
                    parseFields f (skipWs r4)
                      (JVal.setKey acc k.toList.asString v2)
                | '}' :: r4 =>
                    some (.obj (JVal.setKey acc k.toList.asString v2), r4)
                | _ => none
            | _ => none) = some (JVal.obj (acc ++ [(k, v)]), rest)
          rw [skipWs_cons_not (by decide : jsonWs ':' = false)]
          show (match parseVal f (skipWs (' ' :: (dumpVal ind v ++
              '\n' :: (spaces m ++ '}' :: rest)))) with
            | none => none
            | some (v2, r3) =>
              match skipWs r3 with
              | ',' :: r4 =>
                  parseFields f (skipWs r4)
                    (JVal.setKey acc k.toList.asString v2)
              | '}' :: r4 =>
                  some (.obj (JVal.setKey acc k.toList.asString v2), r4)
              | _ => none) = some (JVal.obj (acc ++ [(k, v)]), rest)
          rw [skipWs_space, skipWs_dump]
          have hlv : (dumpVal ind v).length < f := by
            simp only [List.length_cons, List.length_append] at hlen
            omega
          rw [ihf.1 ind v _ hwf.1 hlv (sepOk_nl _)]
          show (match skipWs ('\n' :: (spaces m ++ '}' :: rest)) with
            | ',' :: r4 =>
                parseFields f (skipWs r4) (JVal.setKey acc k.toList.asString v)
            | '}' :: r4 =>
                some (.obj (JVal.setKey acc k.toList.asString v), r4)
            | _ => none) = some (JVal.obj (acc ++ [(k, v)]), rest)
          rw [skipWs_nl, skipWs_spaces,
            skipWs_cons_not (by decide : jsonWs '}' = false)]
          show some (JVal.obj (JVal.setKey acc k v), rest) =
            some (JVal.obj (acc ++ [(k, v)]), rest)
          rw [setKey_not_mem hknotin v]
        | cons g gs =>
          obtain ⟨k2, v2⟩ := g
          simp only [List.cons_append, List.append_assoc, List.nil_append,
            List.append_nil] at hlen ⊢
          rw [parseFields_entry]
          rw [parseStr_escape k.toList _]
          show (match skipWs (':' :: ' ' :: (dumpVal ind v ++
              ',' :: '\n' :: (spaces ind ++ (dumpFields ind k2 v2 gs ++
                '\n' :: (spaces m ++ '}' :: rest))))) with
            | ':' :: r2 =>
              match parseVal f (skipWs r2) with
              | none => none
              | some (w, r3) =>
                match skipWs r3 with
                | ',' :: r4 =>
                    parseFields f (skipWs r4)
                      (JVal.setKey acc k.toList.asString w)
                | '}' :: r4 =>
                    some (.obj (JVal.setKey acc k.toList.asString w), r4)
                | _ => none
            | _ => none) =
            some (JVal.obj (acc ++ (k, v) :: (k2, v2) :: gs), rest)
          rw [skipWs_cons_not (by decide : jsonWs ':' = false)]
          show (match parseVal f (skipWs (' ' :: (dumpVal ind v ++
              ',' :: '\n' :: (spaces ind ++ (dumpFields ind k2 v2 gs ++
                '\n' :: (spaces m ++ '}' :: rest)))))) with
            | none => none
            | some (w, r3) =>
              match skipWs r3 with
              | ',' :: r4 =>
                  parseFields f (skipWs r4)
                    (JVal.setKey acc k.toList.asString w)
              | '}' :: r4 =>
                  some (.obj (JVal.setKey acc k.toList.asString w), r4)
              | _ => none) =
            some (JVal.obj (acc ++ (k, v) :: (k2, v2) :: gs), rest)
          rw [skipWs_space, skipWs_dump]
          have hlv : (dumpVal ind v).length < f := by
            simp only [List.length_cons, List.length_append, spaces,
              List.length_replicate] at hlen
            omega
          rw [ihf.1 ind v _ hwf.1 hlv (sepOk_comma _)]
          show (match skipWs (',' :: '\n' :: (spaces ind ++
              (dumpFields ind k2 v2 gs ++ '\n' :: (spaces m ++ '}' :: rest)))) with
            | ',' :: r4 =>
                parseFields f (skipWs r4) (JVal.setKey acc k.toList.asString v)
            | '}' :: r4 =>
                some (.obj (JVal.setKey acc k.toList.asString v), r4)
            | _ => none) =
            some (JVal.obj (acc ++ (k, v) :: (k2, v2) :: gs), rest)
          rw [skipWs_cons_not (by decide : jsonWs ',' = false)]
          show parseFields f (skipWs ('\n' :: (spaces ind ++
              (dumpFields ind k2 v2 gs ++ '\n' :: (spaces m ++ '}' :: rest)))))
              (JVal.setKey acc k v) =
            some (JVal.obj (acc ++ (k, v) :: (k2, v2) :: gs), rest)
          rw [skipWs_nl, skipWs_spaces, skipWs_dumpFields,
            setKey_not_mem hknotin v]
          have hnd2 : ((acc ++ [(k, v)]).map Prod.fst ++
              k2 :: gs.map Prod.fst).Nodup := by
            simp only [List.map_append, List.map_cons, List.map_nil] at hnd ⊢
            rw [List.append_assoc]
            simpa using hnd
          have hlen2 : (dumpFields ind k2 v2 gs).length + 1 < f := by
            simp only [List.length_cons, List.length_append, spaces,
              List.length_replicate] at hlen
            have := dumpVal_length_pos ind v
            omega
          have hrec := ihf.2.2 ind m k2 v2 gs (acc ++ [(k, v)]) rest
            hwf.2 hnd2 hlen2
          simp only [List.cons_append, List.append_assoc] at hrec
          rw [hrec]
          simp


/-- `json.loads` inverts `json.dumps` on well-formed values. -/
theorem loads_dumps {v : JVal} (hwf : JWF v = true) :
    Loads.loads (Dumps.dumps v) = some v := by
  rw [Loads.loads, Dumps.dumps]
  have hskip : skipWs (dumpVal 0 v) = dumpVal 0 v := by
    have := skipWs_dump 0 v []
    simpa using this
  rw [hskip]
  have hlen : (dumpVal 0 v).length < (dumpVal 0 v).length + 1 := by omega
  have := ((parse_dump_pack ((dumpVal 0 v).length + 1)).1) 0 v [] hwf hlen rfl
  rw [List.append_nil] at this
  rw [this]
  rfl

theorem findFence_boundary :
    ∀ D : List Char, noNlDash D = true → ∀ rest : List Char,
      Frontmatter.findFence (D ++ '\n' :: '-' :: '-' :: '-' :: rest) =
        some D.length := by
  intro D
  induction D with
  | nil => intro _ rest; rfl
  | cons c D ih =>
    intro hnd rest
    have hnd2 : noNlDash D = true := noNlDash_tail hnd
    have step : Frontmatter.findFence ((c :: D) ++ '\n' :: '-' :: '-' :: '-' :: rest)
        = (Frontmatter.findFence (D ++ '\n' :: '-' :: '-' :: '-' :: rest)).map
            (· + 1) := by
      rw [List.cons_append, Frontmatter.findFence.eq_def]
      split
      · next heq =>
        exfalso
        rw [List.cons.injEq] at heq
        obtain ⟨hc, heq2⟩ := heq
        subst hc
        cases D with
        | nil =>
          simp only [List.nil_append, List.cons.injEq] at heq2
          exact absurd heq2.1 (by decide)
        | cons d D2 =>
          simp only [List.cons_append, List.cons.injEq] at heq2
          have hd : d = '-' := heq2.1
          subst hd
          simp [noNlDash] at hnd
      · next heq =>
        rw [List.cons.injEq] at heq
        rw [heq.2]
      · next heq => simp at heq
    rw [step, ih hnd2 rest]
    rfl

theorem takeWhile_pyws_value (fs : List (String × JVal)) (X : List Char) :
    (dumpVal 0 (JVal.obj fs) ++ X).takeWhile Frontmatter.isPyWs = [] := by
  obtain ⟨c, t, hc, hv⟩ := dumpVal_head 0 (JVal.obj fs)
  rw [hc, List.cons_append, List.takeWhile_cons, valueStart_not_pyws hv]
  rfl

/-- The regex split on a serialized document: group 1 is exactly the
dumped JSON and group 2 is the markdown with its leading whitespace
stripped. -/
theorem frameSplit_serialize (fs : List (String × JVal)) (m : String) :
    Frontmatter.frameSplit
        (Frontmatter.fmOpen ++ Dumps.dumps (JVal.obj fs) ++
          Frontmatter.fmClose ++ m.toList) =
      some (Dumps.dumps (JVal.obj fs), m.toList.dropWhile Frontmatter.isPyWs) := by
  rw [Frontmatter.fmOpen, Frontmatter.fmClose]
  simp only [List.cons_append, List.nil_append, List.append_assoc]
  rw [Frontmatter.frameSplit]
  have hrun : ('\n' :: (Dumps.dumps (JVal.obj fs) ++
      ('\n' :: '-' :: '-' :: '-' :: '\n' :: m.toList))).takeWhile
        Frontmatter.isPyWs = ['\n'] := by
    rw [List.takeWhile_cons]
    simp only [show Frontmatter.isPyWs '\n' = true from rfl, if_true]
    rw [Dumps.dumps, takeWhile_pyws_value]
  rw [hrun]
  have hnd : noNlDash (Dumps.dumps (JVal.obj fs)) = true :=
    (noNlDash_dump_pack (sizeOf (JVal.obj fs))).1 0 (JVal.obj fs) le_rfl
  have hff := findFence_boundary (Dumps.dumps (JVal.obj fs)) hnd
    ('\n' :: m.toList)
  simp only [List.length_cons, List.length_nil]
  show List.findSome? _ [0] = _
  rw [List.findSome?]
  simp only [List.drop_succ_cons, List.drop_zero]
  rw [Dumps.dumps] at hff ⊢
  rw [hff]
  simp only [List.take_left, Option.some.injEq]
  have hdrop : (dumpVal 0 (JVal.obj fs) ++
      '\n' :: '-' :: '-' :: '-' :: '\n' :: m.toList).drop
        ((dumpVal 0 (JVal.obj fs)).length + 4) = '\n' :: m.toList := by
    rw [List.drop_append]
    rfl
  rw [hdrop]
  rw [List.dropWhile_cons]
  simp only [show Frontmatter.isPyWs '\n' = true from rfl, if_true]


/-- Parsing a serialized document yields the data unchanged and the
markdown with its leading whitespace stripped by the trailing `\s*` of
the fence pattern. -/
theorem parse_serialize (fs : List (String × JVal)) (m : String)
    (hwf : JWF (JVal.obj fs) = true) :
    Frontmatter.parse_frontmatter
        (Frontmatter.serialize_frontmatter (JVal.obj fs) m) =
      (JVal.obj fs, (m.toList.dropWhile Frontmatter.isPyWs).asString) := by
  have h1 : (Frontmatter.serialize_frontmatter (JVal.obj fs) m).toList =
      Frontmatter.fmOpen ++ Dumps.dumps (JVal.obj fs) ++
        Frontmatter.fmClose ++ m.toList := rfl
  rw [Frontmatter.parse_frontmatter.eq_def, h1, frameSplit_serialize]
  show (match Loads.loads (Dumps.dumps (JVal.obj fs)) with
    | some v => (v, ((m.toList.dropWhile Frontmatter.isPyWs).asString : String))
    | none => (JVal.obj [], Frontmatter.serialize_frontmatter (JVal.obj fs) m))
      = (JVal.obj fs, (m.toList.dropWhile Frontmatter.isPyWs).asString)
  rw [loads_dumps hwf]

end Roundtrip


/-! ## Claims about the FrontmatterCodec (C1) -/

/-- C1 counterexample: serializing the empty mapping with markdown
`" x"` and parsing back returns markdown `"x"`, not `" x"`: the trailing
`\s*` of the fence pattern greedily consumes the markdown body's
leading whitespace, so the round trip is not exact. -/
theorem C1_frontmatter_roundtrip_counterexample :
    Frontmatter.parse_frontmatter
        (Frontmatter.serialize_frontmatter (JVal.obj []) " x") =
      (JVal.obj [], "x") ∧ ("x" : String) ≠ " x" := by
  constructor
  · have h := Roundtrip.parse_serialize [] " x"
      (by simp [JWF, JWFFields, nodupKeys])
    rw [h]
    rfl
  · decide

/-- C1 (amended): for every frontmatter mapping `d` (a Python dict, so
with pairwise-distinct keys at every level) and every markdown string
`m` that is empty or does not begin with a whitespace character,
`parse_frontmatter (serialize_frontmatter d m) = (d, m)`; when `m`
begins with whitespace, that leading whitespace run is stripped. -/
theorem C1_frontmatter_roundtrip (fs : List (String × JVal)) (m : String)
    (hwf : JWF (JVal.obj fs) = true)
    (hm : ∀ c, m.toList.head? = some c → Frontmatter.isPyWs c = false) :
    Frontmatter.parse_frontmatter
        (Frontmatter.serialize_frontmatter (JVal.obj fs) m) =
      (JVal.obj fs, m) := by
  rw [Roundtrip.parse_serialize fs m hwf]
  have hdrop : m.toList.dropWhile Frontmatter.isPyWs = m.toList := by
    cases hm2 : m.toList with
    | nil => rfl
    | cons c t =>
      rw [List.dropWhile_cons, hm c (by rw [hm2]; rfl)]
      rfl
  rw [hdrop]
  rfl

/-- Witness for C1: a concrete two-key document with a nested object
and a markdown body round-trip exactly. -/
theorem C1_frontmatter_roundtrip_witness :
    Frontmatter.parse_frontmatter
        (Frontmatter.serialize_frontmatter
          (JVal.obj [("a", JVal.num 1), ("b", JVal.obj [("c", JVal.str "x")])])
          "hello\nworld") =
      (JVal.obj [("a", JVal.num 1), ("b", JVal.obj [("c", JVal.str "x")])],
        "hello\nworld") := by
  apply C1_frontmatter_roundtrip
  · simp [JWF, JWFFields, nodupKeys]
  · intro c hc
    simp only [List.head?] at hc
    have : c = 'h' := by
      injection hc with h
      exact h.symm
    subst this
    rfl

/-! ## The PathMutator of `life_write.py`

`life_write.py` applies `set`/`merge`/`append`/`remove` operations to a
document (a mapping of string keys to JSON values) addressed by a
dot-separated path.  A document is a `JObj`; Python `None` is the JSON
`null`, so an absent `value` input and an explicit `null` both arrive
as `JVal.null` exactly as `json.loads` delivers them.  Python
exceptions (ValueError and the TypeErrors raised when a path segment
walks into a non-dict) surface as `Except.error`; the untyped TypeError
messages are modelled with a fixed text since `main` reports any
exception text uniformly as an error status. -/

/-- A document: a Python dict of string keys. -/
abbrev JObj := List (String × JVal)

namespace LifeWrite

/-- `SCHEMA_VERSION` of `schemas/life_schemas.py`. -/
def SCHEMA_VERSION : Int := 1

mutual

/-- Python `==` on JSON values: booleans compare equal to the integers
0 and 1, lists compare pointwise, dicts compare by key set regardless
of order. -/
def pyEq (a b : JVal) : Bool :=
  match a, b with
  | .null, .null => true
  | .bool x, .bool y => x == y
  | .bool x, .num m => (if x then (1 : Int) else 0) == m
  | .num n, .bool y => n == (if y then (1 : Int) else 0)
  | .num n, .num m => n == m
  | .str s, .str t => s == t
  | .arr xs, .arr ys => pyEqList xs ys
  | .obj fa, .obj fb => fa.length == fb.length && pyEqFields fa fb
  | _, _ => false
termination_by sizeOf a
decreasing_by
  all_goals simp only [JVal.arr.sizeOf_spec, JVal.obj.sizeOf_spec] <;> omega

/-- Pointwise `==` of two lists (used only at equal lengths). -/
def pyEqList (xs ys : List JVal) : Bool :=
  match xs, ys with
  | [], [] => true
  | x :: xs2, y :: ys2 => pyEq x y && pyEqList xs2 ys2
  | _, _ => false
termination_by sizeOf xs
decreasing_by
  all_goals simp only [List.cons.sizeOf_spec] <;> omega

/-- Every field of the first dict has a `==` value in the second. -/
def pyEqFields (fa fb : List (String × JVal)) : Bool :=
  match fa with
  | [] => true
  | (k, v) :: rest =>
    (match JVal.lookupKey fb k with
     | some w => pyEq v w
     | none => false) && pyEqFields rest fb
termination_by sizeOf fa
decreasing_by
  all_goals simp only [List.cons.sizeOf_spec, Prod.mk.sizeOf_spec] <;> omega

end

/-- `item.get("id")`: a missing key yields Python `None`, i.e. `null`. -/
def objGetId : JVal → JVal
  | .obj fields => (JVal.lookupKey fields "id").getD .null
  | _ => .null

/-- Whether an array element is a dict whose `id` compares `==` to the
given id (`isinstance(item, dict) and item.get("id") == value["id"]`). -/
def idMatches (idv : JVal) (item : JVal) : Bool :=
  match item with
  | .obj fields => pyEq ((JVal.lookupKey fields "id").getD .null) idv
  | _ => false

/-- Python `path.split(".")` (a single-character separator): splits on
every dot, keeping empty segments, and maps the empty string to a
single empty segment. -/
def splitDotsAux : List Char → List (List Char)
  | [] => [[]]
  | c :: rest =>
    if c = '.' then [] :: splitDotsAux rest
    else
      match splitDotsAux rest with
      | g :: gs => (c :: g) :: gs
      | [] => [[c]]

/-- `path.split(".")` on a string. -/
def pySplitDot (s : String) : List String :=
  (splitDotsAux s.toList).map List.asString

/-- `set_nested_value`, positive-path case: walks the dot-path keys,
replacing a missing or non-dict intermediate with a fresh dict, and
assigns the leaf. -/
def set_nested_go (data : JObj) : List String → JVal → JObj
  | [], _ => data
  | [k], v => JVal.setKey data k v
  | k :: k2 :: rest, v =>
    let sub : JObj :=
      match JVal.lookupKey data k with
      | some (.obj o) => o
      | _ => []
    JVal.setKey data k (.obj (set_nested_go sub (k2 :: rest) v))

/-- `set_nested_value(data, path, value)`: an empty path requires a
dict value (else `ValueError`); otherwise the path is split on dots and
walked. -/
def set_nested_value (data : JObj) (path : String) (value : JVal) :
    Except String JObj :=
  if path = "" then
    match value with
    | .obj o => .ok o
    | _ => .error "Cannot set non-dict value without path"
  else
    .ok (set_nested_go data (pySplitDot path) value)

mutual

/-- `deep_merge(base, update)`: for each key of the update, recurse
when both sides hold dicts, otherwise the incoming value wins; fresh
keys append in iteration order as Python dict assignment does. -/
def deep_merge (base : JObj) (upd : JObj) : JObj :=
  match upd with
  | [] => base
  | (k, v) :: rest => deep_merge (mergeKey base k v) rest
termination_by sizeOf upd
decreasing_by
  all_goals simp only [List.cons.sizeOf_spec, Prod.mk.sizeOf_spec] <;> omega

/-- One key of a deep merge: recurse when both the existing and the
incoming values are dicts, otherwise assign the incoming value. -/
def mergeKey (base : JObj) (k : String) (v : JVal) : JObj :=
  match JVal.lookupKey base k, v with
  | some (.obj o1), .obj o2 => JVal.setKey base k (.obj (deep_merge o1 o2))
  | _, _ => JVal.setKey base k v
termination_by sizeOf v
decreasing_by
  all_goals simp only [JVal.obj.sizeOf_spec] <;> omega

end

/-- The array-level upsert of `append_to_array`: the first element that
is a dict with a matching `id` is replaced in place, otherwise the
value is appended at the end. -/
def upsertById (value idv : JVal) : List JVal → List JVal
  | [] => [value]
  | item :: rest =>
    if idMatches idv item then value :: rest
    else item :: upsertById value idv rest

/-- `append_to_array`, recursive walk.  A non-dict intermediate makes
the Python code raise a `TypeError` on its next subscript or membership
test, modelled as an error. -/
def append_go (path : String) (data : JObj) (keys : List String)
    (value : JVal) : Except String JObj :=
  match keys with
  | [] => .ok data
  | [k] =>
    let arr0 : Option (List JVal) :=
      match JVal.lookupKey data k with
      | none => some []
      | some (.arr xs) => some xs
      | some _ => none
    match arr0 with
    | none => .error ("Path " ++ path ++ " is not an array")
    | some xs =>
      match value with
      | .obj vf =>
        match JVal.lookupKey vf "id" with
        | some idv => .ok (JVal.setKey data k (.arr (upsertById value idv xs)))
        | none => .ok (JVal.setKey data k (.arr (xs ++ [value])))
      | _ => .ok (JVal.setKey data k (.arr (xs ++ [value])))
  | k :: k2 :: rest =>
    let sub : Option JObj :=
      match JVal.lookupKey data k with
      | none => some []
      | some (.obj o) => some o
      | some _ => none
    match sub with
    | none => .error "TypeError"
    | some o =>
      match append_go path o (k2 :: rest) value with
      | .ok o2 => .ok (JVal.setKey data k (.obj o2))
      | .error e => .error e

/-- `append_to_array(data, path, value)`. -/
def append_to_array (data : JObj) (path : String) (value : JVal) :
    Except String JObj :=
  append_go path data (pySplitDot path) value

/-- `remove_from_array`, recursive walk: a missing intermediate key
raises `Path ... not found`; the final key must hold a list; an integer
value removes by index with a silent no-op when out of range; a dict
with an `id` removes every element with a `==` id; any other value
removes every `==` element. -/
def remove_go (path : String) (data : JObj) (keys : List String)
    (value : JVal) : Except String JObj :=
  match keys with
  | [] => .ok data
  | [k] =>
    match JVal.lookupKey data k with
    | some (.arr xs) =>
      match value with
      | .num i =>
        if 0 ≤ i ∧ i < xs.length then
          .ok (JVal.setKey data k (.arr (xs.eraseIdx i.toNat)))
        else
          .ok (JVal.setKey data k (.arr xs))
      | .bool b =>
        let i : Int := if b then 1 else 0
        if 0 ≤ i ∧ i < xs.length then
          .ok (JVal.setKey data k (.arr (xs.eraseIdx i.toNat)))
        else
          .ok (JVal.setKey data k (.arr xs))
      | .obj vf =>
        match JVal.lookupKey vf "id" with
        | some idv =>
            .ok (JVal.setKey data k
              (.arr (xs.filter (fun item => !idMatches idv item))))
        | none =>
            .ok (JVal.setKey data k
              (.arr (xs.filter (fun item => !pyEq item value))))
      | _ =>
          .ok (JVal.setKey data k
            (.arr (xs.filter (fun item => !pyEq item value))))
    | _ => .error ("Path " ++ path ++ " is not an array")
  | k :: k2 :: rest =>
    match JVal.lookupKey data k with
    | none => .error ("Path " ++ path ++ " not found")
    | some (.obj o) =>
      match remove_go path o (k2 :: rest) value with
      | .ok o2 => .ok (JVal.setKey data k (.obj o2))
      | .error e => .error e
    | some _ => .error "TypeError"

/-- `remove_from_array(data, path, value)`. -/
def remove_from_array (data : JObj) (path : String) (value : JVal) :
    Except String JObj :=
  remove_go path data (pySplitDot path) value

/-- The read-with-break walk of `main`'s merge branch: follow the path
while the current value is a dict containing the key; on the first
failure the loop breaks with `{}`. -/
def merge_walk : JVal → List String → JVal
  | cur, [] => cur
  | cur, k :: rest =>
    match cur with
    | .obj o =>
      match JVal.lookupKey o k with
      | some v => merge_walk v rest
      | none => .obj []
    | _ => .obj []

/-- The operation dispatch of `main` in `life_write.py`, from the point
where the document `data` has been loaded to the point where it is
serialized: applies the requested operation and stamps `lastUpdated`.
`value` is the JSON-decoded `value` input (Python `None` = `null`);
`genId` stands for the random `generate_id()` result; `now` for the
UTC timestamp.  Exceptions become errors, which `main` reports as an
error status. -/
def main_apply (operation : String) (path : String) (value : JVal)
    (data : JObj) (genId : String) (now : String) : Except String JObj :=
  if operation ∉ ["set", "merge", "append", "remove"] then
    .error ("Invalid operation: " ++ operation ++
      ". Must be set, merge, append, or remove")
  else do
    let data2 ←
      if operation = "set" then
        if path ≠ "" then
          .ok (set_nested_go data (pySplitDot path) value)
        else
          match value with
          | .obj vf =>
            .ok (JVal.setKey vf "version"
              ((JVal.lookupKey data "version").getD (.num SCHEMA_VERSION)))
          | _ => .error "set operation requires dict value when no path specified"
      else if operation = "merge" then
        if value.truthy then
          match value with
          | .obj vf =>
            if path ≠ "" then
              match merge_walk (.obj data) (pySplitDot path) with
              | .obj cur =>
                .ok (set_nested_go data (pySplitDot path)
                  (.obj (deep_merge cur vf)))
              | _ =>
                .ok (set_nested_go data (pySplitDot path) (.obj vf))
            else
              .ok (deep_merge data vf)
          | _ => .ok data
        else .ok data
      else if operation = "append" then
        if path = "" then .error "append operation requires path to array"
        else match value with
        | .null => .error "append operation requires value"
        | _ =>
          let value2 :=
            match value with
            | .obj vf =>
              match JVal.lookupKey vf "id" with
              | some _ => .obj vf
              | none => .obj (JVal.setKey vf "id" (.str genId))
            | v => v
          append_to_array data path value2
      else
        if path = "" then .error "remove operation requires path to array"
        else match value with
        | .null => .error "remove operation requires value (item or index)"
        | _ => remove_from_array data path value
    .ok (JVal.setKey data2 "lastUpdated" (.str now))

end LifeWrite

namespace LifeWrite

/-- Resolution of a dot-path to an existing array, mirroring the walk
of `remove_from_array`: every intermediate key must hold a dict and the
final key must hold a list. -/
def resolveArray (data : JObj) : List String → Option (List JVal)
  | [] => none
  | [k] =>
    match JVal.lookupKey data k with
    | some (.arr xs) => some xs
    | _ => none
  | k :: k2 :: rest =>
    match JVal.lookupKey data k with
    | some (.obj o) => resolveArray o (k2 :: rest)
    | _ => none

/-- Writing a new array back at a resolved dot-path (used to state what
the mutators do to the surrounding document). -/
def writeArray (data : JObj) : List String → List JVal → JObj
  | [], _ => data
  | [k], xs => JVal.setKey data k (.arr xs)
  | k :: k2 :: rest, xs =>
    match JVal.lookupKey data k with
    | some (.obj o) => JVal.setKey data k (.obj (writeArray o (k2 :: rest) xs))
    | _ => data

theorem remove_go_int (path : String) (i : Int) :
    ∀ (keys : List String) (data : JObj) (arr : List JVal),
      resolveArray data keys = some arr →
      remove_go path data keys (.num i) =
        .ok (writeArray data keys
          (if 0 ≤ i ∧ i < (arr.length : Int) then arr.eraseIdx i.toNat
           else arr)) := by
  intro keys
  induction keys with
  | nil =>
    intro data arr hres
    simp [resolveArray] at hres
  | cons k rest ih =>
    intro data arr hres
    cases rest with
    | nil =>
      rcases hl : JVal.lookupKey data k with _ | v
      · have h2 : (none : Option (List JVal)) = some arr := by
          rw [resolveArray, hl] at hres
          exact hres
        exact Option.noConfusion h2
      · cases v with
        | arr xs =>
          have h2 : (some xs : Option (List JVal)) = some arr := by
            rw [resolveArray, hl] at hres
            exact hres
          have hxs : xs = arr := by injection h2
          subst hxs
          have hgoal : remove_go path data [k] (.num i) =
              (if 0 ≤ i ∧ i < (xs.length : Int) then
                 Except.ok (JVal.setKey data k (.arr (xs.eraseIdx i.toNat)))
               else Except.ok (JVal.setKey data k (.arr xs))) := by
            rw [remove_go, hl]
          rw [hgoal]
          by_cases hc : 0 ≤ i ∧ i < (xs.length : Int)
          · rw [if_pos hc, if_pos hc]
            rfl
          · rw [if_neg hc, if_neg hc]
            rfl
        | null =>
          have h2 : (none : Option (List JVal)) = some arr := by
            rw [resolveArray, hl] at hres
            exact hres
          exact Option.noConfusion h2
        | bool b =>
          have h2 : (none : Option (List JVal)) = some arr := by
            rw [resolveArray, hl] at hres
            exact hres
          exact Option.noConfusion h2
        | num n =>
          have h2 : (none : Option (List JVal)) = some arr := by
            rw [resolveArray, hl] at hres
            exact hres
          exact Option.noConfusion h2
        | str t =>
          have h2 : (none : Option (List JVal)) = some arr := by
            rw [resolveArray, hl] at hres
            exact hres
          exact Option.noConfusion h2
        | obj o =>
          have h2 : (none : Option (List JVal)) = some arr := by
            rw [resolveArray, hl] at hres
            exact hres
          exact Option.noConfusion h2
    | cons k2 rest2 =>
      rcases hl : JVal.lookupKey data k with _ | v
      · have h2 : (none : Option (List JVal)) = some arr := by
          rw [resolveArray, hl] at hres
          exact hres
        exact Option.noConfusion h2
      · cases v with
        | obj o =>
          have hres2 : resolveArray o (k2 :: rest2) = some arr := by
            rw [resolveArray, hl] at hres
            exact hres
          have hgoal : remove_go path data (k :: k2 :: rest2) (.num i) =
              (match remove_go path o (k2 :: rest2) (.num i) with
               | .ok o2 => .ok (JVal.setKey data k (.obj o2))
               | .error e => .error e) := by
            rw [remove_go, hl]
          rw [hgoal, ih o arr hres2]
          have hw : writeArray data (k :: k2 :: rest2)
              (if 0 ≤ i ∧ i < (arr.length : Int) then arr.eraseIdx i.toNat
               else arr) =
              JVal.setKey data k (.obj (writeArray o (k2 :: rest2)
                (if 0 ≤ i ∧ i < (arr.length : Int) then arr.eraseIdx i.toNat
                 else arr))) := by
            rw [writeArray, hl]
          rw [hw]
        | null =>
          have h2 : (none : Option (List JVal)) = some arr := by
            rw [resolveArray, hl] at hres
            exact hres
          exact Option.noConfusion h2
        | bool b =>
          have h2 : (none : Option (List JVal)) = some arr := by
            rw [resolveArray, hl] at hres
            exact hres
          exact Option.noConfusion h2
        | num n =>
          have h2 : (none : Option (List JVal)) = some arr := by
            rw [resolveArray, hl] at hres
            exact hres
          exact Option.noConfusion h2
        | str t =>
          have h2 : (none : Option (List JVal)) = some arr := by
            rw [resolveArray, hl] at hres
            exact hres
          exact Option.noConfusion h2
        | arr xs =>
          have h2 : (none : Option (List JVal)) = some arr := by
            rw [resolveArray, hl] at hres
            exact hres
          exact Option.noConfusion h2

end LifeWrite

namespace LifeWrite

theorem upsertById_eq_set (value idv : JVal) :
    ∀ arr : List JVal, arr.any (idMatches idv) = true →
      upsertById value idv arr =
        arr.set (arr.findIdx (idMatches idv)) value := by
  intro arr
  induction arr with
  | nil => intro h; simp at h
  | cons item rest ih =>
    intro hany
    rw [upsertById]
    by_cases hm : idMatches idv item = true
    · rw [if_pos hm, List.findIdx_cons, hm]
      rfl
    · rw [if_neg hm, List.findIdx_cons]
      have hm2 : idMatches idv item = false := by
        cases h2 : idMatches idv item
        · rfl
        · exact absurd h2 hm
      rw [hm2]
      simp only [cond_false]
      have hany2 : rest.any (idMatches idv) = true := by
        rw [List.any_cons, hm2] at hany
        simpa using hany
      rw [ih hany2]
      rfl

theorem append_go_upsert (path : String) (vf : List (String × JVal))
    (idv : JVal) (hid : JVal.lookupKey vf "id" = some idv) :
    ∀ (keys : List String) (data : JObj) (arr : List JVal),
      resolveArray data keys = some arr →
      append_go path data keys (.obj vf) =
        .ok (writeArray data keys (upsertById (.obj vf) idv arr)) := by
  intro keys
  induction keys with
  | nil =>
    intro data arr hres
    simp [resolveArray] at hres
  | cons k rest ih =>
    intro data arr hres
    cases rest with
    | nil =>
      rcases hl : JVal.lookupKey data k with _ | v
      · have h2 : (none : Option (List JVal)) = some arr := by
          rw [resolveArray, hl] at hres
          exact hres
        exact Option.noConfusion h2
      · cases v with
        | arr xs =>
          have h2 : (some xs : Option (List JVal)) = some arr := by
            rw [resolveArray, hl] at hres
            exact hres
          have hxs : xs = arr := by injection h2
          subst hxs
          have hgoal : append_go path data [k] (.obj vf) =
              .ok (JVal.setKey data k (.arr (upsertById (.obj vf) idv xs))) := by
            rw [append_go, hl]
            show (match JVal.lookupKey vf "id" with
              | some idv2 =>
                  Except.ok (JVal.setKey data k
                    (.arr (upsertById (.obj vf) idv2 xs)))
              | none =>
                  Except.ok (JVal.setKey data k
                    (.arr (xs ++ [JVal.obj vf])))) = _
            rw [hid]
          rw [hgoal]
          rfl
        | null =>
          have h2 : (none : Option (List JVal)) = some arr := by
            rw [resolveArray, hl] at hres
            exact hres
          exact Option.noConfusion h2
        | bool b =>
          have h2 : (none : Option (List JVal)) = some arr := by
            rw [resolveArray, hl] at hres
            exact hres
          exact Option.noConfusion h2
        | num n =>
          have h2 : (none : Option (List JVal)) = some arr := by
            rw [resolveArray, hl] at hres
            exact hres
          exact Option.noConfusion h2
        | str t =>
          have h2 : (none : Option (List JVal)) = some arr := by
            rw [resolveArray, hl] at hres
            exact hres
          exact Option.noConfusion h2
        | obj o =>
          have h2 : (none : Option (List JVal)) = some arr := by
            rw [resolveArray, hl] at hres
            exact hres
          exact Option.noConfusion h2
    | cons k2 rest2 =>
      rcases hl : JVal.lookupKey data k with _ | v
      · have h2 : (none : Option (List JVal)) = some arr := by
          rw [resolveArray, hl] at hres
          exact hres
        exact Option.noConfusion h2
      · cases v with
        | obj o =>
          have hres2 : resolveArray o (k2 :: rest2) = some arr := by
            rw [resolveArray, hl] at hres
            exact hres
          have hgoal : append_go path data (k :: k2 :: rest2) (.obj vf) =
              (match append_go path o (k2 :: rest2) (.obj vf) with
               | .ok o2 => .ok (JVal.setKey data k (.obj o2))
               | .error e => .error e) := by
            rw [append_go, hl]
          rw [hgoal, ih o arr hres2]
          have hw : writeArray data (k :: k2 :: rest2)
              (upsertById (.obj vf) idv arr) =
              JVal.setKey data k (.obj (writeArray o (k2 :: rest2)
                (upsertById (.obj vf) idv arr))) := by
            rw [writeArray, hl]
          rw [hw]
        | null =>
          have h2 : (none : Option (List JVal)) = some arr := by
            rw [resolveArray, hl] at hres
            exact hres
          exact Option.noConfusion h2
        | bool b =>
          have h2 : (none : Option (List JVal)) = some arr := by
            rw [resolveArray, hl] at hres
            exact hres
          exact Option.noConfusion h2
        | num n =>
          have h2 : (none : Option (List JVal)) = some arr := by
            rw [resolveArray, hl] at hres
            exact hres
          exact Option.noConfusion h2
        | str t =>
          have h2 : (none : Option (List JVal)) = some arr := by
            rw [resolveArray, hl] at hres
            exact hres
          exact Option.noConfusion h2
        | arr xs =>
          have h2 : (none : Option (List JVal)) = some arr := by
            rw [resolveArray, hl] at hres
            exact hres
          exact Option.noConfusion h2

end LifeWrite

/-! ## Claims about the PathMutator (C3, C4, C5) -/

/-- C3 counterexample: removing index 5 from the one-element array at
path `a` returns a success with the document unchanged — a silent
out-of-range no-op, not an error. -/
theorem C3_remove_out_of_range_counterexample :
    LifeWrite.remove_from_array [("a", JVal.arr [JVal.num 1])] "a"
        (JVal.num 5) =
      .ok [("a", JVal.arr [JVal.num 1])] := by
  have h := LifeWrite.remove_go_int "a" 5 (LifeWrite.pySplitDot "a")
    [("a", JVal.arr [JVal.num 1])] [JVal.num 1] (by rfl)
  rw [LifeWrite.remove_from_array, h]
  rfl

/-- C3 (amended): on a document whose path resolves to an existing
array, `remove` with an integer index removes the element at that index
when it is within bounds, and silently succeeds with the array
unchanged when it is out of range (the code never raises for an
out-of-range index). -/
theorem C3_remove_by_index (data : JObj) (path : String) (i : Int)
    (arr : List JVal)
    (hres : LifeWrite.resolveArray data (LifeWrite.pySplitDot path) =
      some arr) :
    LifeWrite.remove_from_array data path (.num i) =
      .ok (LifeWrite.writeArray data (LifeWrite.pySplitDot path)
        (if 0 ≤ i ∧ i < (arr.length : Int) then arr.eraseIdx i.toNat
         else arr)) := by
  rw [LifeWrite.remove_from_array]
  exact LifeWrite.remove_go_int path i _ data arr hres

/-- Witness for C3: removing index 0 from a two-element array removes
the first element. -/
theorem C3_remove_by_index_witness :
    LifeWrite.remove_from_array
        [("a", JVal.arr [JVal.num 1, JVal.num 2])] "a" (JVal.num 0) =
      .ok [("a", JVal.arr [JVal.num 2])] := by
  have h := C3_remove_by_index [("a", JVal.arr [JVal.num 1, JVal.num 2])]
    "a" 0 [JVal.num 1, JVal.num 2] (by rfl)
  rw [h]
  rfl

/-- C4 counterexample: a `merge` with the non-mapping value `5` and no
path returns a success (only `lastUpdated` is stamped), not an error. -/
theorem C4_merge_nonmapping_counterexample :
    LifeWrite.main_apply "merge" "" (JVal.num 5) [] "g" "t" =
      .ok [("lastUpdated", JVal.str "t")] := by
  rfl

/-- C4 (amended): a `merge` whose value is not a nonempty mapping (in
particular any non-mapping value) with no path silently succeeds as a
no-op: the document is returned unchanged except for the `lastUpdated`
stamp; no error is reported. -/
theorem C4_merge_nonmapping_noop (data : JObj) (value : JVal)
    (genId now : String)
    (h : ∀ vf, value = JVal.obj vf → vf = []) :
    LifeWrite.main_apply "merge" "" value data genId now =
      .ok (JVal.setKey data "lastUpdated" (JVal.str now)) := by
  cases value with
  | obj vf =>
    have hvf := h vf rfl
    subst hvf
    rfl
  | null => rfl
  | bool b => cases b <;> rfl
  | num n =>
    simp only [LifeWrite.main_apply, ite_self]
    rfl
  | str t =>
    simp only [LifeWrite.main_apply, ite_self]
    rfl
  | arr xs =>
    simp only [LifeWrite.main_apply, ite_self]
    rfl

/-- Witness for C4: merging the value `5` into a one-key document with
no path succeeds and only stamps `lastUpdated`. -/
theorem C4_merge_nonmapping_noop_witness :
    LifeWrite.main_apply "merge" "" (JVal.num 5) [("k", JVal.num 7)]
        "g" "t" =
      .ok [("k", JVal.num 7), ("lastUpdated", JVal.str "t")] := by
  have h := C4_merge_nonmapping_noop [("k", JVal.num 7)] (JVal.num 5)
    "g" "t" (fun vf hv => JVal.noConfusion hv)
  rw [h]
  rfl

/-- C5: appending a mapping whose `id` matches an existing element's
`id` replaces that element in place: the result writes back the array
with the first matching element replaced by the value, and the array
length is unchanged.  In particular the claim scenario holds: appending
`{"id": "x", "v": 1}` and then `{"id": "x", "v": 2}` to an empty array
yields the single element `{"id": "x", "v": 2}`. -/
theorem C5_append_upsert (data : JObj) (path : String)
    (vf : List (String × JVal)) (idv : JVal) (arr : List JVal)
    (hres : LifeWrite.resolveArray data (LifeWrite.pySplitDot path) =
      some arr)
    (hid : JVal.lookupKey vf "id" = some idv)
    (hmatch : arr.any (LifeWrite.idMatches idv) = true) :
    (LifeWrite.append_to_array data path (.obj vf) =
        .ok (LifeWrite.writeArray data (LifeWrite.pySplitDot path)
          (arr.set (arr.findIdx (LifeWrite.idMatches idv)) (.obj vf))) ∧
      (arr.set (arr.findIdx (LifeWrite.idMatches idv)) (.obj vf)).length =
        arr.length) ∧
    (LifeWrite.append_to_array [("a", JVal.arr [])] "a"
        (.obj [("id", JVal.str "x"), ("v", JVal.num 1)]) =
      .ok [("a", JVal.arr
        [JVal.obj [("id", JVal.str "x"), ("v", JVal.num 1)]])] ∧
      LifeWrite.append_to_array
          [("a", JVal.arr [JVal.obj [("id", JVal.str "x"), ("v", JVal.num 1)]])]
          "a" (.obj [("id", JVal.str "x"), ("v", JVal.num 2)]) =
        .ok [("a", JVal.arr
          [JVal.obj [("id", JVal.str "x"), ("v", JVal.num 2)]])]) := by
  refine ⟨⟨?_, by simp⟩, ?_, ?_⟩
  · rw [LifeWrite.append_to_array,
      LifeWrite.append_go_upsert path vf idv hid _ data arr hres,
      LifeWrite.upsertById_eq_set (.obj vf) idv arr hmatch]
  · rfl
  · simp [LifeWrite.append_to_array, LifeWrite.append_go,
      LifeWrite.pySplitDot, LifeWrite.splitDotsAux, LifeWrite.upsertById,
      LifeWrite.idMatches, LifeWrite.pyEq, JVal.lookupKey, JVal.setKey,
      show ((['a'].asString : String) = "a") from rfl]

/-- Witness for C5: an upsert on a concrete two-element array replaces
the matching first element in place. -/
theorem C5_append_upsert_witness :
    LifeWrite.append_to_array
        [("a", JVal.arr [JVal.obj [("id", JVal.str "x"), ("v", JVal.num 1)],
                         JVal.obj [("id", JVal.str "y")]])]
        "a" (.obj [("id", JVal.str "x"), ("v", JVal.num 2)]) =
      .ok [("a", JVal.arr [JVal.obj [("id", JVal.str "x"), ("v", JVal.num 2)],
                           JVal.obj [("id", JVal.str "y")]])] := by
  have h := (C5_append_upsert
    [("a", JVal.arr [JVal.obj [("id", JVal.str "x"), ("v", JVal.num 1)],
                     JVal.obj [("id", JVal.str "y")]])]
    "a" [("id", JVal.str "x"), ("v", JVal.num 2)] (JVal.str "x")
    [JVal.obj [("id", JVal.str "x"), ("v", JVal.num 1)],
     JVal.obj [("id", JVal.str "y")]]
    (by rfl) (by rfl)
    (by simp [LifeWrite.idMatches, LifeWrite.pyEq, JVal.lookupKey])).1.1
  rw [h]
  have hidx : (List.findIdx (LifeWrite.idMatches (JVal.str "x"))
      [JVal.obj [("id", JVal.str "x"), ("v", JVal.num 1)],
       JVal.obj [("id", JVal.str "y")]]) = 0 := by
    simp [List.findIdx_cons, LifeWrite.idMatches, LifeWrite.pyEq,
      JVal.lookupKey]
  rw [hidx]
  rfl

/-! ### process_campaign_replies.py: reply classification and stage policy -/

namespace Replies

/-- ASCII apostrophe, for keywords written with a contraction in the source. -/
def apos : String := (Char.ofNat 39).toString

/-- Model of Python `str.lower()` restricted to ASCII case mapping, which
covers every keyword and every input considered here. -/
def pyLower (s : String) : String := (s.data.map Char.toLower).asString

/-- Model of Python substring containment `pat in s` on character lists:
true iff `pat` occurs contiguously in the second list (the empty pattern
occurs in everything, as in Python). -/
def containsSub (pat : List Char) : List Char → Bool
  | [] => pat.isEmpty
  | c :: t => pat.isPrefixOf (c :: t) || containsSub pat t

/-- Python `pat in s` on strings. -/
def pyIn (pat s : String) : Bool := containsSub pat.data s.data

def kwLetsChat : String := "let" ++ apos ++ "s chat"
def kwLetsTalk : String := "let" ++ apos ++ "s talk"
def kwLetsMeet : String := "let" ++ apos ++ "s meet"
def kwWereAllSet : String := "we" ++ apos ++ "re all set"

def interestedKws : List String :=
  ["interested", "tell me more", "sounds good", kwLetsChat,
   kwLetsTalk, "would love to", "yes please", "send me",
   "share more", "learn more", "curious about"]

def meetingRequestKws : List String :=
  ["schedule a call", "book a meeting", "set up a time", "calendar",
   "available", "free time", "next week", "this week", "tomorrow",
   kwLetsMeet, "15 minutes", "30 minutes", "quick call"]

def notInterestedKws : List String :=
  ["not interested", "no thank you", "no thanks", "not a good fit",
   "not for us", "pass on this", "not right now", "maybe later",
   "not at this time", kwWereAllSet, "already have"]

def unsubscribeKws : List String :=
  ["unsubscribe", "stop emailing", "stop contacting", "remove me",
   "opt out", "opt-out", "do not contact", "leave me alone",
   "remove my email", "take me off"]

def outOfOfficeKws : List String :=
  ["out of office", "on vacation", "away from", "limited access",
   "return on", "back on", "auto-reply", "automatic reply"]

def questionKws : List String :=
  ["how does", "what is", "can you explain", "more information",
   "how much", "pricing", "cost", "features", "?"]

/-- INTENT_PATTERNS as an association list in the dict's insertion order,
which is the iteration order of the scoring loop. -/
def INTENT_PATTERNS : List (String × List String) :=
  [("interested", interestedKws),
   ("meeting_request", meetingRequestKws),
   ("not_interested", notInterestedKws),
   ("unsubscribe", unsubscribeKws),
   ("out_of_office", outOfOfficeKws),
   ("question", questionKws)]

/-- The keywords of one category that match the (already lowercased)
content, in declaration order: the inner loop of analyze_reply. -/
def matchedOf (lower_content : String) (patterns : List String) : List String :=
  patterns.filter (fun p => pyIn (pyLower p) lower_content)

/-- Result record of analyze_reply.  Python floats are modelled as exact
rationals; the arithmetic the claims touch (score 0) is exact in float too. -/
structure ReplyAnalysis where
  sentiment : String
  intent : String
  confidence : ℚ
  suggested_stage : Option String
  suggested_action : Option String
  keywords_matched : List String
deriving DecidableEq

/-- analyze_reply from process_campaign_replies.py: per-category substring
scoring in declaration order, strictly-greater top selection starting from
("unknown", 0), then the sentiment/stage/action mapping and
confidence = min(0.9, 0.3 + 0.15 * top_score). -/
def analyze_reply (content : String) : ReplyAnalysis :=
  let lower_content := pyLower content
  let scored := INTENT_PATTERNS.map (fun ip => (ip.1, matchedOf lower_content ip.2))
  let matched_keywords := scored.foldl (fun acc ip => acc ++ ip.2) []
  let intent_scores := scored.map (fun ip => (ip.1, ip.2.length))
  let top := intent_scores.foldl
    (fun t is => if is.2 > t.2 then (is.1, is.2) else t) ("unknown", 0)
  let confidence : ℚ := min (9/10) (3/10 + (top.2 : ℚ) * (15/100))
  if top.1 = "unsubscribe" then
    ⟨"negative", top.1, confidence, some "lost", some "mark_unsubscribed", matched_keywords⟩
  else if top.1 = "interested" then
    ⟨"positive", top.1, confidence, some "replied", some "follow_up_with_details", matched_keywords⟩
  else if top.1 = "meeting_request" then
    ⟨"positive", top.1, confidence, some "qualified", some "schedule_meeting", matched_keywords⟩
  else if top.1 = "not_interested" then
    ⟨"negative", top.1, confidence, some "lost", some "close_target", matched_keywords⟩
  else if top.1 = "out_of_office" then
    ⟨"neutral", top.1, confidence, none, some "wait_and_retry", matched_keywords⟩
  else if top.1 = "question" then
    ⟨"neutral", top.1, confidence, some "replied", some "answer_question", matched_keywords⟩
  else
    ⟨"neutral", top.1, confidence, some "replied", some "review_manually", matched_keywords⟩

/-- Canonical stage progression order from main (line 394). -/
def stages : List String :=
  ["identified", "researched", "contacted", "replied", "qualified",
   "booked", "won", "lost"]

/-- stages.index(current_stage) if current_stage in stages else 0, where
current_stage = target_info.get("current_stage") may be missing (None). -/
def currentIdx (current_stage : Option String) : Nat :=
  match current_stage with
  | some s => if s ∈ stages then stages.indexOf s else 0
  | none => 0

/-- stages.index(suggested_stage) if suggested_stage in stages else 0. -/
def suggestedIdx (suggested_stage : String) : Nat :=
  if suggested_stage ∈ stages then stages.indexOf suggested_stage else 0

/-- The guard of the update_target_stage call in main (line 399):
the suggested stage is applied iff it is "lost" or strictly advances. -/
def shouldApplyStage (current_stage : Option String) (suggested_stage : String) : Bool :=
  suggested_stage == "lost" || decide (currentIdx current_stage < suggestedIdx suggested_stage)

end Replies

/-- C2 counterexample: on the exact input of the claim, analyze_reply
returns intent "interested", not "not_interested": "interested" is a
substring of "not interested", so the tie at score 1 is between
"interested" (declared first), "not_interested" and "unsubscribe", and the
strictly-greater selection loop keeps the first. -/
theorem C2_reply_scenario_counterexample :
    (Replies.analyze_reply "Not interested, please unsubscribe").intent = "interested" ∧
    (Replies.analyze_reply "Not interested, please unsubscribe").intent ≠ "not_interested" ∧
    (Replies.analyze_reply "Not interested, please unsubscribe").suggested_stage ≠ some "lost" ∧
    (Replies.analyze_reply "Not interested, please unsubscribe").suggested_action ≠ some "close_target" := by
  refine ⟨by decide, by decide, by decide, by decide⟩

/-- C2 (amended): analyze_reply("Not interested, please unsubscribe")
returns intent "interested" (the keyword "interested" also matches inside
"not interested", and the first-declared category wins the three-way tie),
hence sentiment "positive", suggested_stage "replied", suggested_action
"follow_up_with_details", with keywords_matched
["interested", "not interested", "unsubscribe"]. -/
theorem C2_reply_scenario :
    (Replies.analyze_reply "Not interested, please unsubscribe").intent = "interested" ∧
    (Replies.analyze_reply "Not interested, please unsubscribe").sentiment = "positive" ∧
    (Replies.analyze_reply "Not interested, please unsubscribe").suggested_stage = some "replied" ∧
    (Replies.analyze_reply "Not interested, please unsubscribe").suggested_action = some "follow_up_with_details" ∧
    (Replies.analyze_reply "Not interested, please unsubscribe").keywords_matched =
      ["interested", "not interested", "unsubscribe"] := by
  refine ⟨by decide, by decide, by decide, by decide, by decide⟩

/-- C6: for a current stage among the canonical 8 and a suggested stage
among the canonical 8, the reply processor's stage-update guard holds iff
the suggestion is "lost" or its index strictly exceeds the current index;
in particular from "contacted" a suggestion "identified" is rejected,
"qualified" is accepted, and "lost" is accepted from any current stage. -/
theorem C6_stage_monotonicity (current suggested : String)
    (hc : current ∈ Replies.stages) (hs : suggested ∈ Replies.stages) :
    (Replies.shouldApplyStage (some current) suggested = true ↔
      (suggested = "lost" ∨
        Replies.stages.indexOf current < Replies.stages.indexOf suggested)) ∧
    Replies.shouldApplyStage (some "contacted") "identified" = false ∧
    Replies.shouldApplyStage (some "contacted") "qualified" = true ∧
    Replies.shouldApplyStage (some current) "lost" = true := by
  have hcur : Replies.currentIdx (some current) = Replies.stages.indexOf current := by
    simp [Replies.currentIdx, hc]
  have hsug : Replies.suggestedIdx suggested = Replies.stages.indexOf suggested := by
    simp [Replies.suggestedIdx, hs]
  refine ⟨?_, by decide, by decide, ?_⟩
  · simp [Replies.shouldApplyStage, hcur, hsug]
  · simp [Replies.shouldApplyStage]

theorem C6_stage_monotonicity_witness :
    (Replies.shouldApplyStage (some "contacted") "qualified" = true ↔
      ("qualified" = "lost" ∨
        Replies.stages.indexOf "contacted" < Replies.stages.indexOf "qualified")) ∧
    Replies.shouldApplyStage (some "contacted") "identified" = false ∧
    Replies.shouldApplyStage (some "contacted") "qualified" = true ∧
    Replies.shouldApplyStage (some "contacted") "lost" = true :=
  C6_stage_monotonicity "contacted" "qualified" (by decide) (by decide)

/-- C10: when no keyword of any category occurs (case-insensitively) in the
content, every category scores 0, the top selection keeps ("unknown", 0),
and the else branch yields sentiment "neutral", confidence 0.3,
suggested_stage "replied", suggested_action "review_manually" and no
matched keywords. -/
theorem C10_no_keyword_defaults (content : String)
    (h : ∀ pr ∈ Replies.INTENT_PATTERNS, ∀ p ∈ pr.2,
      Replies.pyIn (Replies.pyLower p) (Replies.pyLower content) = false) :
    Replies.analyze_reply content =
      ⟨"neutral", "unknown", 3/10, some "replied", some "review_manually", []⟩ := by
  have hmatch : ∀ pr ∈ Replies.INTENT_PATTERNS,
      Replies.matchedOf (Replies.pyLower content) pr.2 = [] := by
    intro pr hpr
    refine List.filter_eq_nil.mpr (fun p hp => ?_)
    simp [h pr hpr p hp]
  have h1 := hmatch ("interested", Replies.interestedKws) (by simp [Replies.INTENT_PATTERNS])
  have h2 := hmatch ("meeting_request", Replies.meetingRequestKws) (by simp [Replies.INTENT_PATTERNS])
  have h3 := hmatch ("not_interested", Replies.notInterestedKws) (by simp [Replies.INTENT_PATTERNS])
  have h4 := hmatch ("unsubscribe", Replies.unsubscribeKws) (by simp [Replies.INTENT_PATTERNS])
  have h5 := hmatch ("out_of_office", Replies.outOfOfficeKws) (by simp [Replies.INTENT_PATTERNS])
  have h6 := hmatch ("question", Replies.questionKws) (by simp [Replies.INTENT_PATTERNS])
  simp only [Replies.analyze_reply, Replies.INTENT_PATTERNS, List.map_cons, List.map_nil] at *
  rw [h1, h2, h3, h4, h5, h6]
  norm_num
  rfl

theorem C10_no_keyword_defaults_witness :
    Replies.analyze_reply "hello" =
      ⟨"neutral", "unknown", 3/10, some "replied", some "review_manually", []⟩ :=
  C10_no_keyword_defaults "hello" (by decide)

/-! ### execute_approved_actions.py: the non-dry-run batch over pending -/

namespace ExecuteActions

/-- `action.get("status") != "approved"` is the skip condition of the
loop, so an action is processed iff its status key is present and
`==` "approved" (a missing key gives None, which is not equal). -/
def isApproved (action : JObj) : Bool :=
  match JVal.lookupKey action "status" with
  | some v => LifeWrite.pyEq v (JVal.str "approved")
  | none => false

/-- `a.get("status") != "executed"`, negated: the final comprehension
keeps exactly the actions for which this is false. -/
def isExecuted (action : JObj) : Bool :=
  match JVal.lookupKey action "status" with
  | some v => LifeWrite.pyEq v (JVal.str "executed")
  | none => false

/-- Python `idv in action_ids` (membership by `==`). -/
def memIds (action_ids : List JVal) (idv : JVal) : Bool :=
  action_ids.any (fun x => LifeWrite.pyEq x idv)

/-- The success branch: action["status"] = "executed" and
action["executed_at"] = now.isoformat() + "Z". -/
def succUpdate (now : String) (action : JObj) : JObj :=
  JVal.setKey (JVal.setKey action "status" (JVal.str "executed"))
    "executed_at" (JVal.str (now ++ "Z"))

/-- The failure branch: the status key is left untouched and
action["last_error"] = error, action["last_attempt"] = now + "Z". -/
def failUpdate (now : String) (err : String) (action : JObj) : JObj :=
  JVal.setKey (JVal.setKey action "last_error" (JVal.str err))
    "last_attempt" (JVal.str (now ++ "Z"))

/-- The main loop of execute_approved_actions.py over data["pending"]
with dry_run = False.  The external dispatch (execute_email /
execute_linkedin / execute_sms) is the oracle exec: none is a success
result, some err a failure result with that error string.  Every
processed action reads action["id"] (for the id filter and the result
entry), so a processed action with no id raises KeyError: the whole
batch then aborts without saving, modelled as none.  The history busy
of the success branch only touches data["history"], which is outside
the pending array this embedding tracks. -/
def runPending (action_ids : List JVal) (exec : JObj → Option String)
    (now : String) : List JObj → Option (List JObj)
  | [] => some []
  | action :: rest =>
    if isApproved action = false then
      (runPending action_ids exec now rest).map (fun l => action :: l)
    else
      match JVal.lookupKey action "id" with
      | none => none
      | some idv =>
        if action_ids.isEmpty = false ∧ memIds action_ids idv = false then
          (runPending action_ids exec now rest).map (fun l => action :: l)
        else
          match exec action with
          | none =>
            (runPending action_ids exec now rest).map
              (fun l => succUpdate now action :: l)
          | some err =>
            (runPending action_ids exec now rest).map
              (fun l => failUpdate now err action :: l)

/-- After the loop: data["pending"] = [a for a in data["pending"]
if a.get("status") != "executed"] (non-dry-run). -/
def main_pending (action_ids : List JVal) (exec : JObj → Option String)
    (now : String) (pending : List JObj) : Option (List JObj) :=
  (runPending action_ids exec now pending).map
    (fun l => l.filter (fun a => !(isExecuted a)))

end ExecuteActions

/-- lookupKey after setKey at the same key yields the new value. -/
theorem lookup_setKey_eq (fs : JObj) (k : String) (v : JVal) :
    JVal.lookupKey (JVal.setKey fs k v) k = some v := by
  induction fs with
  | nil => simp [JVal.setKey, JVal.lookupKey]
  | cons p t ih =>
    obtain ⟨k0, v0⟩ := p
    by_cases h : k0 = k
    · simp [JVal.setKey, JVal.lookupKey, h]
    · simp [JVal.setKey, JVal.lookupKey, h, ih]

/-- lookupKey after setKey at a different key is unchanged. -/
theorem lookup_setKey_ne (fs : JObj) (k k2 : String) (v : JVal)
    (h : k2 ≠ k) :
    JVal.lookupKey (JVal.setKey fs k v) k2 = JVal.lookupKey fs k2 := by
  have h2k : ¬ k = k2 := fun hh => h hh.symm
  induction fs with
  | nil => simp [JVal.setKey, JVal.lookupKey, h2k]
  | cons p t ih =>
    obtain ⟨k0, v0⟩ := p
    by_cases h0 : k0 = k
    · subst h0
      simp [JVal.setKey, JVal.lookupKey, h2k]
    · simp [JVal.setKey, JVal.lookupKey, h0, ih]

/-- A value `==` a string in the Python sense iff it is that string. -/
theorem pyEq_str_iff (v : JVal) (s : String) :
    LifeWrite.pyEq v (JVal.str s) = true ↔ v = JVal.str s := by
  cases v <;> rw [LifeWrite.pyEq] <;> simp

/-- C7: in a non-dry-run batch, every pending action is either left
untouched (skipped), marked executed on dispatch success, or given
last_error / last_attempt on dispatch failure with its status key left
as it was; the saved pending array is exactly the updated array with
the executed entries filtered out, and a failed approved action is
still approved, not executed, hence survives that filter. -/
theorem C7_failed_dispatch_retry (action_ids : List JVal)
    (exec : JObj → Option String) (now : String)
    (pending l : List JObj)
    (hrun : ExecuteActions.runPending action_ids exec now pending = some l) :
    List.Forall₂ (fun a a2 =>
      a2 = a ∨
      (exec a = none ∧ a2 = ExecuteActions.succUpdate now a) ∨
      (∃ err, exec a = some err ∧ ExecuteActions.isApproved a = true ∧
        a2 = ExecuteActions.failUpdate now err a)) pending l ∧
    ExecuteActions.main_pending action_ids exec now pending =
      some (l.filter (fun a => !(ExecuteActions.isExecuted a))) ∧
    (∀ a2 ∈ l, ExecuteActions.isExecuted a2 = false →
      a2 ∈ l.filter (fun a => !(ExecuteActions.isExecuted a))) ∧
    (∀ a err, ExecuteActions.isApproved a = true → exec a = some err →
      JVal.lookupKey (ExecuteActions.failUpdate now err a) "status" =
        JVal.lookupKey a "status" ∧
      JVal.lookupKey (ExecuteActions.failUpdate now err a) "last_error" =
        some (JVal.str err) ∧
      JVal.lookupKey (ExecuteActions.failUpdate now err a) "last_attempt" =
        some (JVal.str (now ++ "Z")) ∧
      ExecuteActions.isApproved (ExecuteActions.failUpdate now err a) = true ∧
      ExecuteActions.isExecuted (ExecuteActions.failUpdate now err a) = false) := by
  have hstat : ∀ a err, JVal.lookupKey (ExecuteActions.failUpdate now err a) "status" =
      JVal.lookupKey a "status" := by
    intro a err
    rw [ExecuteActions.failUpdate, lookup_setKey_ne _ _ _ _ (by decide),
      lookup_setKey_ne _ _ _ _ (by decide)]
  refine ⟨?_, ?_, ?_, ?_⟩
  · clear hstat
    induction pending generalizing l with
    | nil =>
      rw [ExecuteActions.runPending] at hrun
      cases hrun
      exact List.Forall₂.nil
    | cons a rest ih =>
      rw [ExecuteActions.runPending] at hrun
      by_cases hA : ExecuteActions.isApproved a = false
      · rw [if_pos hA] at hrun
        obtain ⟨l2, h1, h2⟩ := Option.map_eq_some'.mp hrun
        subst h2
        exact List.Forall₂.cons (Or.inl rfl) (ih l2 h1)
      · rw [if_neg hA] at hrun
        cases hid : JVal.lookupKey a "id" with
        | none => rw [hid] at hrun; exact Option.noConfusion hrun
        | some idv =>
          rw [hid] at hrun
          simp only [] at hrun
          by_cases hc : action_ids.isEmpty = false ∧
              ExecuteActions.memIds action_ids idv = false
          · rw [if_pos hc] at hrun
            obtain ⟨l2, h1, h2⟩ := Option.map_eq_some'.mp hrun
            subst h2
            exact List.Forall₂.cons (Or.inl rfl) (ih l2 h1)
          · rw [if_neg hc] at hrun
            cases hex : exec a with
            | none =>
              rw [hex] at hrun
              obtain ⟨l2, h1, h2⟩ := Option.map_eq_some'.mp hrun
              subst h2
              exact List.Forall₂.cons (Or.inr (Or.inl ⟨hex, rfl⟩)) (ih l2 h1)
            | some err =>
              rw [hex] at hrun
              obtain ⟨l2, h1, h2⟩ := Option.map_eq_some'.mp hrun
              subst h2
              have hA2 : ExecuteActions.isApproved a = true := by
                cases hAc : ExecuteActions.isApproved a
                · exact absurd hAc hA
                · rfl
              exact List.Forall₂.cons (Or.inr (Or.inr ⟨err, hex, hA2, rfl⟩)) (ih l2 h1)
  · rw [ExecuteActions.main_pending, hrun]
    rfl
  · intro a2 ha2 hne
    exact List.mem_filter.mpr ⟨ha2, by simp [hne]⟩
  · intro a err hA hex
    have hs := hstat a err
    refine ⟨hs, ?_, ?_, ?_, ?_⟩
    · rw [ExecuteActions.failUpdate, lookup_setKey_ne _ _ _ _ (by decide),
        lookup_setKey_eq]
    · rw [ExecuteActions.failUpdate, lookup_setKey_eq]
    · rw [ExecuteActions.isApproved] at hA ⊢
      rw [hs]
      exact hA
    · rw [ExecuteActions.isApproved] at hA
      rw [ExecuteActions.isExecuted, hs]
      cases hl : JVal.lookupKey a "status" with
      | none => rw [hl] at hA
      | some v =>
        rw [hl] at hA
        simp only [] at hA
        have hv : v = JVal.str "approved" := (pyEq_str_iff v "approved").mp hA
        subst hv
        show LifeWrite.pyEq (JVal.str "approved") (JVal.str "executed") = false
        cases hpe : LifeWrite.pyEq (JVal.str "approved") (JVal.str "executed") with
        | false => rfl
        | true => exact absurd ((pyEq_str_iff _ _).mp hpe) (by simp)

theorem C7_failed_dispatch_retry_witness :
    ExecuteActions.main_pending [] (fun _ => some "SMTP error") "T0"
        [[("id", JVal.str "a1"), ("status", JVal.str "approved")]] =
      some ([ExecuteActions.failUpdate "T0" "SMTP error"
        [("id", JVal.str "a1"), ("status", JVal.str "approved")]].filter
          (fun a => !(ExecuteActions.isExecuted a))) :=
  (C7_failed_dispatch_retry [] (fun _ => some "SMTP error") "T0"
    [[("id", JVal.str "a1"), ("status", JVal.str "approved")]]
    [ExecuteActions.failUpdate "T0" "SMTP error"
      [("id", JVal.str "a1"), ("status", JVal.str "approved")]]
    (by simp [ExecuteActions.runPending, ExecuteActions.isApproved,
      JVal.lookupKey, LifeWrite.pyEq])).2.1

/-! ### migrate_targets_to_prospects.py: migrate_campaign on parsed data -/

namespace Migrate

/-- `d.get(k, default)`. -/
def getD (fields : JObj) (k : String) (d : JVal) : JVal :=
  (JVal.lookupKey fields k).getD d

/-- `k in d` on a dict. -/
def hasKey (fields : JObj) (k : String) : Bool :=
  (JVal.lookupKey fields k).isSome

/-- The outcome of one pass of migrate_campaign's per-target loop body
(non-dry-run), over the parsed targets list.  The whole `try` block -
find_prospect_by_email, create_prospect_file and the construction of
the new reference, all driven by filesystem lookups - is abstracted as
the oracle tryRef: .ok ref is a successful migration producing that
reference, .error e an exception whose message is e.  Python str() on
the target name (used in the two error messages) is the oracle pyStr.
Returns (migrated, skipped, errors, new_references); a non-dict target
raises before the try block, aborting the run (none). -/
def migrate_loop (pyStr : JVal → String) (tryRef : JObj → Except String JVal) :
    List JVal → Option (Nat × Nat × List String × List JVal)
  | [] => some (0, 0, [], [])
  | t :: rest =>
    match t with
    | .obj tf =>
      let name := getD tf "name" (JVal.str "Unknown")
      let email := getD tf "email" .null
      if JVal.truthy email = false then
        (migrate_loop pyStr tryRef rest).map (fun r =>
          (r.1, r.2.1 + 1,
           ("Target " ++ Replies.apos ++ pyStr name ++ Replies.apos ++
             " has no email - cannot migrate") :: r.2.2.1, r.2.2.2))
      else
        match tryRef tf with
        | .error e =>
          (migrate_loop pyStr tryRef rest).map (fun r =>
            (r.1, r.2.1 + 1,
             ("Failed to migrate " ++ Replies.apos ++ pyStr name ++
               Replies.apos ++ ": " ++ e) :: r.2.2.1, r.2.2.2))
        | .ok ref =>
          (migrate_loop pyStr tryRef rest).map (fun r =>
            (r.1 + 1, r.2.1, r.2.2.1, ref :: r.2.2.2))
    | _ => none

/-- The result of migrate_campaign restricted to the fields the claims
talk about: the counts, the error list, the collected references, the
rewritten targets.md content if any, and the report message. -/
structure MigResult where
  migrated : Nat
  skipped : Nat
  errors : List String
  new_references : List JVal
  written : Option String
  message : String

/-- migrate_campaign (dry_run = False) after parse_frontmatter, as a
pure function of the parsed (data, markdown): the already-migrated and
empty-targets early returns, the per-target loop, and the final
`if not dry_run and new_references:` rewrite of targets.md with the
fresh v2 document, serialized by serialize_frontmatter. -/
def migrate_campaign (pyStr : JVal → String)
    (tryRef : JObj → Except String JVal) (now : String)
    (data : JObj) (markdown : String) : Option MigResult :=
  if hasKey data "target_references" = true ∧ hasKey data "targets" = false then
    some ⟨0, 0, [], [], none, "Campaign already uses reference format"⟩
  else
    let targets := getD data "targets" (JVal.arr [])
    if JVal.truthy targets = false then
      some ⟨0, 0, [], [], none, "No targets to migrate"⟩
    else
      match targets with
      | .arr ts =>
        (migrate_loop pyStr tryRef ts).map (fun r =>
          { migrated := r.1
            skipped := r.2.1
            errors := r.2.2.1
            new_references := r.2.2.2
            written :=
              if r.2.2.2.isEmpty then none
              else some (Frontmatter.serialize_frontmatter
                (JVal.obj [("version", JVal.num 2),
                  ("lastUpdated", JVal.str (now ++ "Z")),
                  ("target_references", JVal.arr r.2.2.2)]) markdown)
            message := "Migrated " ++ toString r.1 ++ " targets, skipped " ++
              toString r.2.1 })
      | _ => none

end Migrate

/-! ### campaign_write.py: add_target_by_prospect on the targets doc -/

namespace CampaignWrite

/-- The target reference dict built by add_target_by_prospect, with the
generated id and the timestamp as parameters. -/
def mkTargetRef (prospect_slug genId now : String) : JObj :=
  [("id", JVal.str genId),
   ("prospect_slug", JVal.str prospect_slug),
   ("added_at", JVal.str now),
   ("last_touch_at", JVal.null),
   ("touch_count", JVal.num 0),
   ("campaign_stage", JVal.str "identified"),
   ("unsubscribed", JVal.bool false)]

/-- The data transformation of add_target_by_prospect on the parsed
targets document: append to data["target_references"] when that key
exists (none if it holds a non-list, where .append would raise), else
replace the whole document by a fresh v2 document holding only the new
reference; then data["lastUpdated"] = now. -/
def add_target_by_prospect_data (prospect_slug genId now : String)
    (data : JObj) : Option JObj :=
  let target_ref := mkTargetRef prospect_slug genId now
  let data2 : Option JObj :=
    match JVal.lookupKey data "target_references" with
    | some (JVal.arr xs) =>
      some (JVal.setKey data "target_references"
        (JVal.arr (xs ++ [JVal.obj target_ref])))
    | some _ => none
    | none =>
      some [("version", JVal.num 2), ("lastUpdated", JVal.str now),
        ("target_references", JVal.arr [JVal.obj target_ref])]
  data2.map (fun d => JVal.setKey d "lastUpdated" (JVal.str now))

end CampaignWrite

/-- C8: non-dry-run migration of a legacy campaign whose targets list is
a single target that has a name but no (truthy) email reports
migrated = 0 and skipped = 1 with the exact error string naming the
target, collects no references and does not rewrite targets.md; and in
general a run that collects no new references never writes. -/
theorem C8_migration_skips_no_email (pyStr : JVal → String)
    (tryRef : JObj → Except String JVal) (now markdown : String)
    (data tf : JObj) (n : String)
    (htargets : JVal.lookupKey data "targets" = some (JVal.arr [JVal.obj tf]))
    (hname : JVal.lookupKey tf "name" = some (JVal.str n))
    (hpy : pyStr (JVal.str n) = n)
    (hemail : JVal.truthy (Migrate.getD tf "email" JVal.null) = false) :
    Migrate.migrate_campaign pyStr tryRef now data markdown =
      some ⟨0, 1,
        ["Target " ++ Replies.apos ++ n ++ Replies.apos ++
          " has no email - cannot migrate"],
        [], none, "Migrated 0 targets, skipped 1"⟩ ∧
    (∀ data2 r,
      Migrate.migrate_campaign pyStr tryRef now data2 markdown = some r →
      r.new_references = [] → r.written = none) := by
  constructor
  · have hc : ¬ (Migrate.hasKey data "target_references" = true ∧
        Migrate.hasKey data "targets" = false) := by
      rintro ⟨-, hf⟩
      rw [Migrate.hasKey, htargets] at hf
      exact Bool.noConfusion hf
    rw [Migrate.migrate_campaign, if_neg hc]
    simp only [Migrate.getD, htargets, Option.getD_some]
    rw [if_neg (by simp [JVal.truthy])]
    show (Migrate.migrate_loop pyStr tryRef [JVal.obj tf]).map _ = _
    rw [Migrate.migrate_loop]
    simp only [Migrate.getD, hname, Option.getD_some]
    rw [Migrate.getD] at hemail
    rw [if_pos hemail, Migrate.migrate_loop]
    simp only [Option.map_some', hpy]
    rfl
  · intro data2 r hmig hrefs
    rw [Migrate.migrate_campaign] at hmig
    split at hmig
    · cases hmig
      rfl
    · simp only [] at hmig
      split at hmig
      · cases hmig
        rfl
      · split at hmig
        · obtain ⟨x, hx, hr⟩ := Option.map_eq_some'.mp hmig
          subst hr
          have hempty : x.2.2.2 = [] := hrefs
          simp only [hempty, List.isEmpty_nil, if_true]
        · exact Option.noConfusion hmig

theorem C8_migration_skips_no_email_witness :
    Migrate.migrate_campaign
        (fun v => match v with | JVal.str s => s | _ => "")
        (fun _ => Except.error "E") "T" [("targets",
          JVal.arr [JVal.obj [("name", JVal.str "Bob")]])] "m" =
      some ⟨0, 1,
        ["Target " ++ Replies.apos ++ "Bob" ++ Replies.apos ++
          " has no email - cannot migrate"],
        [], none, "Migrated 0 targets, skipped 1"⟩ ∧
    (∀ data2 r,
      Migrate.migrate_campaign
        (fun v => match v with | JVal.str s => s | _ => "")
        (fun _ => Except.error "E") "T" data2 "m" = some r →
      r.new_references = [] → r.written = none) :=
  C8_migration_skips_no_email
    (fun v => match v with | JVal.str s => s | _ => "")
    (fun _ => Except.error "E") "T" "m"
    [("targets", JVal.arr [JVal.obj [("name", JVal.str "Bob")]])]
    [("name", JVal.str "Bob")] "Bob" rfl rfl rfl rfl

/-- C9: on a targets document that has a legacy "targets" entry and no
"target_references" key, add_target_by_prospect replaces the document
by a fresh v2 document holding only the new reference; in particular
the legacy "targets" key (and all inline targets under it) is gone
from the result. -/
theorem C9_legacy_targets_replaced (slug gid now : String) (data : JObj)
    (targets : JVal)
    (hleg : JVal.lookupKey data "targets" = some targets)
    (hno : JVal.lookupKey data "target_references" = none) :
    CampaignWrite.add_target_by_prospect_data slug gid now data =
      some [("version", JVal.num 2), ("lastUpdated", JVal.str now),
        ("target_references",
          JVal.arr [JVal.obj (CampaignWrite.mkTargetRef slug gid now)])] ∧
    (∀ d, CampaignWrite.add_target_by_prospect_data slug gid now data = some d →
      JVal.lookupKey d "targets" = none) := by
  have h1 : CampaignWrite.add_target_by_prospect_data slug gid now data =
      some [("version", JVal.num 2), ("lastUpdated", JVal.str now),
        ("target_references",
          JVal.arr [JVal.obj (CampaignWrite.mkTargetRef slug gid now)])] := by
    rw [CampaignWrite.add_target_by_prospect_data]
    simp only [hno, Option.map_some']
    rw [JVal.setKey]
    simp [JVal.setKey]
  refine ⟨h1, ?_⟩
  intro d hd
  rw [h1] at hd
  cases hd
  rw [JVal.lookupKey]
  simp [JVal.lookupKey]

theorem C9_legacy_targets_replaced_witness :
    CampaignWrite.add_target_by_prospect_data "p" "g" "T"
        [("targets", JVal.arr [])] =
      some [("version", JVal.num 2), ("lastUpdated", JVal.str "T"),
        ("target_references",
          JVal.arr [JVal.obj (CampaignWrite.mkTargetRef "p" "g" "T")])] ∧
    (∀ d, CampaignWrite.add_target_by_prospect_data "p" "g" "T"
        [("targets", JVal.arr [])] = some d →
      JVal.lookupKey d "targets" = none) :=
  C9_legacy_targets_replaced "p" "g" "T" [("targets", JVal.arr [])]
    (JVal.arr []) rfl rfl
